import Mathlib

/-!
Shallow embedding of the classification-and-copy engine of
`mlo_cleaner_gui_dark_multi.py` (classifier `should_keep_file`, per-job copy
loop `CleanerWorker.clean_one`, progress mapping `_update_progress`, and the
queue runner `App.start.run_queue`), with theorems settling the frozen claims.

Modelling conventions:
* paths are lists of components (`List String`); the Python `Path.name`,
  `Path.suffix`, `Path.stem` and `Path.with_name` operations are embedded
  from their `pathlib` definitions on the final component;
* the destination file system is an association list from destination paths
  (relative to the job's destination root) to file contents; a file content
  is a `Nat`, and the SHA-1 digest of a content is modelled as the content
  itself (the code and spec treat digest equality as content equality and
  regard collisions as impossible);
* environmental I/O failures are modelled by two flags on each source file:
  `hashOk` (reading the file for `sha1_file` succeeds) and `copyOk`
  (`shutil.copy2` succeeds);
* the `threading.Event` cancellation flag is modelled as a function
  `stop : Nat → Bool` read at an ever-increasing tick counter: every
  `stop_event.is_set()` call in the code consumes one tick, so the code's
  discipline (one check per file inside a job, one check before each job)
  is visible in the tick arithmetic;
* the float expressions `int(start + (end - start) * (i / total))` of
  `_update_progress` and `int(((idx - 1) / n) * 100)` of `run_queue` are
  embedded exactly: a binary64 double is represented by its exact rational
  value and each float operation by correctly rounded rational arithmetic
  (`roundFP`, round-to-nearest-even), so e.g. `int((29/50)*100)` evaluates
  to 57 here just as in Python, not to the exact floor 58.
-/

namespace MloCleaner

/-- True iff `needle` occurs as a contiguous sublist of the second list. -/
def listIsInfix {α : Type} [DecidableEq α] (needle : List α) : List α → Bool
  | [] => needle.isEmpty
  | h :: t => needle.isPrefixOf (h :: t) || listIsInfix needle t

/-- Python `sub in s` on strings: substring containment. -/
def strContainsSub (s sub : String) : Bool :=
  listIsInfix sub.toList s.toList

/-- ASCII lower-casing of one character, as Python `str.lower` acts on the
ASCII range (the only range exercised by the file names this tool handles). -/
def lowerChar (c : Char) : Char :=
  if 'A' ≤ c ∧ c ≤ 'Z' then Char.ofNat (c.toNat + 32) else c

/-- Python `str.lower`. -/
def lowerStr (s : String) : String :=
  String.mk (s.toList.map lowerChar)

/-- Index of the last occurrence of a dot in a character list
(Python `str.rfind` restricted to the needle it is used with). -/
def lastDotIdx : List Char → Option Nat
  | [] => none
  | c :: cs =>
    match lastDotIdx cs with
    | some i => some (i + 1)
    | none => if c = '.' then some 0 else none

/-- Python `pathlib.PurePath.suffix` of a final component: the part of the
name from its last dot, provided that dot is neither the first nor the last
character; empty otherwise. -/
def py_suffix (nm : String) : String :=
  match lastDotIdx nm.toList with
  | none => ""
  | some i =>
    if 0 < i ∧ i < nm.toList.length - 1 then String.mk (nm.toList.drop i) else ""

/-- Python `pathlib.PurePath.stem` of a final component: the name with
`py_suffix` removed. -/
def py_stem (nm : String) : String :=
  match lastDotIdx nm.toList with
  | none => nm
  | some i =>
    if 0 < i ∧ i < nm.toList.length - 1 then String.mk (nm.toList.take i) else nm

/-- The data of a `pathlib.Path` value that `should_keep_file` consults:
its final component and whether the path denotes a directory on disk. -/
structure PyPath where
  name : String
  is_dir : Bool
deriving Repr, DecidableEq

/-- The module constant `DEFAULT_KEEP_EXTS`. -/
def DEFAULT_KEEP_EXTS : List String :=
  [".ymap", ".ytyp", ".ydr", ".ytd", ".yft", ".ycd", ".ynv", ".ypt",
   ".awc", ".gxt2", ".meta", ".dat10", ".dat54", ".dat151"]

/-- Source `is_occlusion_name`: the lower-cased final component contains
the substring "occl" or the substring "occlusion". -/
def is_occlusion_name (p : PyPath) : Bool :=
  let n := lowerStr p.name
  strContainsSub n "occl" || strContainsSub n "occlusion"

/-- Source `should_keep_file`: returns `(keep, reason)`. -/
def should_keep_file (p : PyPath) (keep_exts : List String) (include_ybn : Bool) :
    Bool × String :=
  if p.is_dir then (false, "is_directory")
  else
    let ext := lowerStr (py_suffix p.name)
    if is_occlusion_name p then (false, "occlusion_file_name")
    else if ext = ".ybn" ∧ include_ybn = false then (false, "ybn_disabled")
    else if keep_exts.contains ext ∨ (include_ybn = true ∧ ext = ".ybn") then
      (true, "kept")
    else (false, "extension_not_allowed:" ++ (if ext = "" then "<none>" else ext))

/-- One regular file discovered by `iter_files` under a source root:
its final component, its path relative to the source root (ending in the
final component), its content, and the two environment flags saying whether
hashing it (`sha1_file`) and copying it (`shutil.copy2`) would succeed. -/
structure SrcFile where
  name : String
  rel : List String
  content : Nat
  hashOk : Bool
  copyOk : Bool
deriving Repr, DecidableEq

/-- A queued source root: its directory name, whether the path exists and is
a directory, and the regular files `iter_files` enumerates beneath it, in
enumeration order. -/
structure SourceRoot where
  name : String
  path_exists : Bool
  is_dir : Bool
  files : List SrcFile
deriving Repr, DecidableEq

/-- The option snapshot a job receives (parameters of `clean_one`). -/
structure JobOptions where
  keep_exts : List String
  include_ybn : Bool
  make_fxmanifest : Bool
  flatten_stream : Bool
  dedupe : Bool
deriving Repr, DecidableEq

/-- The log lines the engine emits that the claims talk about, with the
data each line carries. -/
inductive LogEvent where
  | skipReason (name reason : String)
  | deduped (name earlier : String)
  | skipSame (name : String)
  | hashWarn (name : String)
  | conflict (name : String)
  | copyTo (name : String) (dest : List String)
  | errorCaught (name : String)
  | stopRequested
  | summary (copied skipped errors : Nat)
deriving Repr, DecidableEq

/-- The mutable state of one `clean_one` invocation: the destination tree
(association list from destination-root-relative paths to contents), the
dedup index `seen_hashes`, the three counters, the log lines emitted so far
and the progress pairs delivered to the progress callback so far. -/
structure JobState where
  fs : List (List String × Nat)
  seen : List (Nat × List String)
  copied : Nat
  skipped : Nat
  errors : Nat
  events : List LogEvent
  progress : List (Nat × Nat)
deriving Repr, DecidableEq

/-- The tuple `clean_one` returns. -/
structure JobResult where
  copied : Nat
  skipped : Nat
  errors : Nat
  dest_root : List String
deriving Repr, DecidableEq

/-- Everything observable from one job: its final state, the returned
result tuple, whether the loop was aborted by the stop flag, and the
`fxmanifest.lua` content written into the destination root (if requested). -/
structure JobOutcome where
  state : JobState
  result : JobResult
  aborted : Bool
  fxmanifest : Option String
deriving Repr, DecidableEq

/-- The observable outcome of one `run_queue` invocation: the outcomes of
the jobs that ran (in order), the message of the fatal exception that ended
the queue (if any), and whether the queue-level stop check fired. -/
structure QueueOutcome where
  jobs : List JobOutcome
  fatal : Option String
  stoppedEarly : Bool
deriving Repr, DecidableEq

/-- Association-list lookup (first binding wins), used for both the
destination tree and the dedup index. -/
def lookupA {α β : Type} [DecidableEq α] : List (α × β) → α → Option β
  | [], _ => none
  | (k, v) :: t, a => if k = a then some v else lookupA t a

/-- Python `Path.with_name`: replace the final component. -/
def with_name (p : List String) (nm : String) : List String :=
  p.dropLast ++ [nm]

/-- The final component of a destination path. -/
def lastComp (p : List String) : String :=
  p.getLastD ""

/-- The candidate `dest_path.with_name(f"{stem}_{n}{ext}")` probed by the
name-conflict loop of `clean_one`. -/
def alt_name (dest : List String) (n : Nat) : List String :=
  with_name dest (py_stem (lastComp dest) ++ "_" ++ toString n ++ py_suffix (lastComp dest))

/-- The `while True` probe loop of `clean_one`: starting at suffix number
`n`, return the first candidate name not present in the destination tree.
The source loop is unbounded; it terminates at the first free name, and
calling this function with `fuel = fs.length + 1` makes the fuel bound
unreachable (at most `fs.length` candidate names can be occupied, and the
candidates are pairwise distinct), so the fallback clause below is dead. -/
def probeFree (fs : List (List String × Nat)) (dest : List String) : Nat → Nat → List String
  | n, 0 => alt_name dest n
  | n, fuel + 1 =>
    match lookupA fs (alt_name dest n) with
    | none => alt_name dest n
    | some _ => probeFree fs dest (n + 1) fuel

/-- Destination path of a kept file, relative to the destination root:
`stream / name` when flattening, `stream / rel` otherwise. -/
def dest_of (o : JobOptions) (f : SrcFile) : List String :=
  if o.flatten_stream then ["stream", f.name] else "stream" :: f.rel

/-- Round a rational to the nearest integer, ties going to the even
integer: the integer-level rounding rule inside IEEE-754
round-to-nearest-even. -/
def rne (q : ℚ) : ℤ :=
  if q - ⌊q⌋ < 1 / 2 then ⌊q⌋
  else if 1 / 2 < q - ⌊q⌋ then ⌊q⌋ + 1
  else if 2 ∣ ⌊q⌋ then ⌊q⌋ else ⌊q⌋ + 1

/-- Binary exponent of the least-significant significand bit of the
binary64 value nearest a positive rational: 52 below its floor base-2
logarithm, clamped at the subnormal granularity `-1074`. -/
def expoFP (x : ℚ) : ℤ :=
  max (Int.log 2 x - 52) (-1074)

/-- The exact rational value of the IEEE-754 binary64 double nearest a
nonnegative rational (round-to-nearest-even): the nearest multiple of
`2 ^ expoFP x`, ties to even. This is exact for every finite nonnegative
double, normal or subnormal; values at or above `2 ^ 1024` (where the real
format overflows to infinity) never arise in this program, whose float
values all lie in `[0, 101]`. Every float operation Python performs here
(`/`, `*`, `+` on doubles, with the participating small ints converted to
double exactly) returns the correctly rounded exact result, i.e. `roundFP`
of the exact rational. -/
def roundFP (x : ℚ) : ℚ :=
  if x ≤ 0 then 0
  else (rne (x * 2 ^ (-expoFP x)) : ℚ) * 2 ^ expoFP x

/-- Python `int(x)` on a nonnegative float: truncation toward zero. -/
def pyInt (x : ℚ) : ℕ :=
  ⌊x⌋.toNat

/-- Python `a / b` on two nonnegative ints: true division producing the
correctly rounded double. -/
def pyFloatDiv (a b : ℕ) : ℚ :=
  roundFP ((a : ℚ) / (b : ℚ))

/-- Python `k * x` with a small nonnegative int `k` (converted to double
exactly, since `k ≤ 2 ^ 53` for every int this program multiplies) and a
nonnegative double `x`: one correctly rounded multiplication. -/
def pyFloatMul (k : ℕ) (x : ℚ) : ℚ :=
  roundFP ((k : ℚ) * x)

/-- Python `k + x` with a small nonnegative int `k` and a nonnegative
double `x`: one correctly rounded addition. -/
def pyFloatAdd (k : ℕ) (x : ℚ) : ℚ :=
  roundFP ((k : ℚ) + x)

/-- The value `int(start + (end - start) * frac)` computed by
`_update_progress` with `frac = i / total`, in Python float arithmetic. -/
def progress_value (s e i total : Nat) : Nat :=
  pyInt (pyFloatAdd s (pyFloatMul (e - s) (pyFloatDiv i total)))

/-- The value `int((k / n) * 100)` computed by `run_queue` for the global
progress chunk boundaries, in Python float arithmetic (the product
`frac * 100` is the same exact rational as `100 * frac`, hence the same
correctly rounded double). -/
def qchunk (k n : Nat) : Nat :=
  pyInt (pyFloatMul 100 (pyFloatDiv k n))

/-- Source `_update_progress`: with no range, forward `(i, total)`; with a
range `(s, e)`, map the local fraction `i / total` into `[s, e]` with
`int(s + (e - s) * (i / total))` evaluated in Python float arithmetic, and
report against a total of 100. In the source `e - s` is Python int
subtraction; `run_queue` always supplies `s ≤ e` (proved below), where
the natural subtraction used here agrees with it. -/
def progress_pair (range : Option (Nat × Nat)) (i total : Nat) : Nat × Nat :=
  match range with
  | none => (i, total)
  | some (s, e) => (progress_value s e i total, 100)

/-- The `shutil.copy2` call and its surrounding bookkeeping: on success the
file content lands at `dest` and the copied counter advances; on an I/O
failure the error counter advances and the failure is logged, the job
continuing either way. -/
def doCopy (f : SrcFile) (st : JobState) (dest : List String) : JobState :=
  if f.copyOk then
    { st with fs := (dest, f.content) :: st.fs,
              copied := st.copied + 1,
              events := st.events ++ [.copyTo f.name dest] }
  else
    { st with errors := st.errors + 1,
              events := st.events ++ [.errorCaught f.name] }

/-- The `if dest_path.exists()` block of `clean_one`: skip when the existing
destination file already has the source's content (warning instead when the
hash comparison fails), otherwise probe `name_2.ext`, `name_3.ext`, … for a
free destination before copying. -/
def afterDedup (f : SrcFile) (st : JobState) (dest0 : List String) : JobState :=
  match lookupA st.fs dest0 with
  | none => doCopy f st dest0
  | some c =>
    if f.hashOk = true ∧ c = f.content then
      { st with skipped := st.skipped + 1, events := st.events ++ [.skipSame f.name] }
    else
      doCopy f
        { st with events := st.events ++
            (if f.hashOk then [] else [.hashWarn f.name]) ++ [.conflict f.name] }
        (probeFree st.fs dest0 2 (st.fs.length + 1))

/-- The body of the per-file loop of `clean_one` for one file, without the
progress report: classify, then (under `dedupe`) hash and consult
`seen_hashes`, then resolve any destination collision and copy, converting
any I/O failure into an error count plus log line. -/
def stepCore (o : JobOptions) (f : SrcFile) (st : JobState) : JobState :=
  if (should_keep_file ⟨f.name, false⟩ o.keep_exts o.include_ybn).1 = false then
    { st with skipped := st.skipped + 1,
              events := st.events ++
                [.skipReason f.name
                  (should_keep_file ⟨f.name, false⟩ o.keep_exts o.include_ybn).2] }
  else
    if o.dedupe then
      if f.hashOk = false then
        { st with errors := st.errors + 1, events := st.events ++ [.errorCaught f.name] }
      else
        match lookupA st.seen f.content with
        | some earlier =>
          { st with skipped := st.skipped + 1,
                    events := st.events ++ [.deduped f.name (lastComp earlier)] }
        | none =>
          afterDedup f { st with seen := (f.content, dest_of o f) :: st.seen }
            (dest_of o f)
    else afterDedup f st (dest_of o f)

/-- One full iteration of the per-file loop: the body above followed by the
single `_update_progress` call every non-break path performs. -/
def step (o : JobOptions) (total : Nat) (range : Option (Nat × Nat)) (i : Nat)
    (f : SrcFile) (st : JobState) : JobState :=
  { stepCore o f st with
    progress := (stepCore o f st).progress ++ [progress_pair range i total] }

/-- The `for i, f in enumerate(files, start=1)` loop of `clean_one`.
Each iteration first reads the stop flag (consuming one tick); if it is set
the loop logs the abort and breaks, otherwise the file is processed.
Returns the final state, the next tick, and whether the loop was aborted. -/
def copyLoop (stop : Nat → Bool) (o : JobOptions) (total : Nat)
    (range : Option (Nat × Nat)) :
    List SrcFile → Nat → Nat → JobState → JobState × Nat × Bool
  | [], _, t, st => (st, t, false)
  | f :: rest, i, t, st =>
    if stop t then
      ({ st with events := st.events ++ [.stopRequested] }, t + 1, true)
    else
      copyLoop stop o total range rest (i + 1) (t + 1) (step o total range i f st)

/-- Source `CleanerWorker.clean_one` for one source root: validate the root
(raising `FileNotFoundError`, modelled as `Except.error`, when it is missing
or not a directory), fix the destination root `<out_dir>/<name>_fivem_clean`,
write the manifest when requested, enumerate the files and run the per-file
loop, then emit the summary line and return the counters with the
destination root. `initFs` is the content of the destination tree before
the job (the code creates `stream/` with `exist_ok=True` and handles
files already present). -/
def clean_one (stop : Nat → Bool) (src : SourceRoot) (out_dir : List String)
    (o : JobOptions) (range : Option (Nat × Nat)) (t : Nat)
    (initFs : List (List String × Nat)) : Except String (JobOutcome × Nat) :=
  if src.path_exists = false ∨ src.is_dir = false then
    .error ("Source folder not found: " ++ src.name)
  else
    let dest_root := out_dir ++ [src.name ++ "_fivem_clean"]
    let total := max 1 src.files.length
    let st0 : JobState :=
      { fs := initFs, seen := [], copied := 0, skipped := 0, errors := 0,
        events := [], progress := [] }
    let r := copyLoop stop o total range src.files 1 t st0
    let st1 := { r.1 with
      events := r.1.events ++ [.summary r.1.copied r.1.skipped r.1.errors] }
    .ok ({ state := st1,
           result := { copied := st1.copied, skipped := st1.skipped,
                       errors := st1.errors, dest_root := dest_root },
           aborted := r.2.2,
           fxmanifest := if o.make_fxmanifest then some src.name else none },
         r.2.1)

/-- The `for idx, src in enumerate(self.sources, start=1)` loop of
`run_queue`, with the `try`/`except` of `run_queue` wrapped around it:
before each job the stop flag is read (one tick); a set flag stops the
queue, an exception escaping `clean_one` is caught as a fatal error ending
the whole queue, and otherwise the job's outcome is recorded and the loop
continues. `destInit idx` is the destination tree content job `idx` finds
pre-existing. -/
def run_queue_aux (stop : Nat → Bool) (out_dir : List String) (o : JobOptions)
    (destInit : Nat → List (List String × Nat)) (n : Nat) :
    List SourceRoot → Nat → Nat → QueueOutcome
  | [], _, _ => { jobs := [], fatal := none, stoppedEarly := false }
  | src :: rest, idx, t =>
    if stop t then { jobs := [], fatal := none, stoppedEarly := true }
    else
      match clean_one stop src out_dir o (some (qchunk (idx - 1) n, qchunk idx n))
          (t + 1) (destInit idx) with
      | .error msg => { jobs := [], fatal := some msg, stoppedEarly := false }
      | .ok (jo, t2) =>
        let q := run_queue_aux stop out_dir o destInit n rest (idx + 1) t2
        { q with jobs := jo :: q.jobs }

/-- Source `App.start.run_queue`: run the queued source roots sequentially,
giving job `idx` (1-based) of `n` the global progress range
`(int(((idx - 1) / n) * 100), int((idx / n) * 100))` computed in Python
float arithmetic (`qchunk`). The option set always uses
`DEFAULT_KEEP_EXTS` together with the four UI flags. -/
def run_queue (stop : Nat → Bool) (sources : List SourceRoot) (out_dir : List String)
    (include_ybn make_fxmanifest flatten_stream dedupe : Bool)
    (destInit : Nat → List (List String × Nat)) : QueueOutcome :=
  run_queue_aux stop out_dir
    ⟨DEFAULT_KEEP_EXTS, include_ybn, make_fxmanifest, flatten_stream, dedupe⟩
    destInit sources.length sources 1 0

/-- The full sequence of `(current, total)` pairs the progress sink receives
over one queue run, in delivery order. -/
def queueTrace (q : QueueOutcome) : List (Nat × Nat) :=
  (q.jobs.map (fun jo => jo.state.progress)).flatten

/-- Sum of the three per-job counters. -/
def sumC (st : JobState) : Nat :=
  st.copied + st.skipped + st.errors

/-- Recogniser for the "deduped" log line. -/
def isDedupedEv : LogEvent → Bool
  | .deduped _ _ => true
  | _ => false

/-- Recogniser for the per-file error log line. -/
def isErrorEv : LogEvent → Bool
  | .errorCaught _ => true
  | _ => false

end MloCleaner
namespace MloCleaner

lemma is_occlusion_of_sub {p : PyPath}
    (h : strContainsSub (lowerStr p.name) "occl" = true ∨
         strContainsSub (lowerStr p.name) "occlusion" = true) :
    is_occlusion_name p = true := by
  unfold is_occlusion_name
  rcases h with h | h <;> simp [h]

/-- C4: a non-directory file whose base name contains `occl` or `occlusion`
in any letter case is rejected with reason `occlusion_file_name`, for every
allowed-extension set and every value of the collision flag. -/
theorem occlusion_rule_unconditional (p : PyPath) (hdir : p.is_dir = false)
    (hocc : strContainsSub (lowerStr p.name) "occl" = true ∨
            strContainsSub (lowerStr p.name) "occlusion" = true) :
    ∀ (keep_exts : List String) (include_ybn : Bool),
      should_keep_file p keep_exts include_ybn = (false, "occlusion_file_name") := by
  intro ke inc
  unfold should_keep_file
  simp [hdir, is_occlusion_of_sub hocc]

theorem occlusion_rule_unconditional_witness :
    should_keep_file ⟨"OcclusionMesh.ydr", false⟩ DEFAULT_KEEP_EXTS false =
      (false, "occlusion_file_name") :=
  occlusion_rule_unconditional ⟨"OcclusionMesh.ydr", false⟩ rfl
    (Or.inl (by decide)) DEFAULT_KEEP_EXTS false

/-- C3 counterexample: `stairs.ybn` with the collision flag off is rejected
with reason `ybn_disabled`, not `collision_disabled` as the claim states. -/
theorem ybn_reason_counterexample :
    should_keep_file ⟨"stairs.ybn", false⟩ DEFAULT_KEEP_EXTS false =
      (false, "ybn_disabled") ∧
    should_keep_file ⟨"stairs.ybn", false⟩ DEFAULT_KEEP_EXTS false ≠
      (false, "collision_disabled") := by
  constructor
  · rfl
  · decide

/-- C3 amended: a non-directory, non-occlusion file whose lower-cased
extension is `.ybn` is rejected with reason exactly `ybn_disabled` when the
collision flag is off, and accepted with reason `kept` when it is on. -/
theorem ybn_gate (p : PyPath) (keep_exts : List String)
    (hdir : p.is_dir = false) (hocc : is_occlusion_name p = false)
    (hext : lowerStr (py_suffix p.name) = ".ybn") :
    should_keep_file p keep_exts false = (false, "ybn_disabled") ∧
    should_keep_file p keep_exts true = (true, "kept") := by
  unfold should_keep_file
  simp [hdir, hocc, hext]

theorem ybn_gate_witness :
    should_keep_file ⟨"stairs.ybn", false⟩ DEFAULT_KEEP_EXTS false =
      (false, "ybn_disabled") ∧
    should_keep_file ⟨"stairs.ybn", false⟩ DEFAULT_KEEP_EXTS true =
      (true, "kept") :=
  ybn_gate ⟨"stairs.ybn", false⟩ DEFAULT_KEEP_EXTS rfl (by decide) (by decide)

/-- C1 counterexample: with a queue of two source roots whose first root
does not exist, the queue runner records a fatal error and runs no job at
all — in particular the second, valid job never runs, refuting the claim
that the runner skips to the next source root and continues. -/
theorem missing_source_aborts_queue_counterexample :
    (run_queue (fun _ => false)
        [⟨"bad", false, true, []⟩, ⟨"good", true, true, []⟩] ["out"]
        false true true false (fun _ => [])).jobs = [] ∧
    (run_queue (fun _ => false)
        [⟨"bad", false, true, []⟩, ⟨"good", true, true, []⟩] ["out"]
        false true true false (fun _ => [])).fatal =
      some "Source folder not found: bad" := by
  constructor <;> rfl

lemma clean_one_error {stop : Nat → Bool} {src : SourceRoot} {out : List String}
    {o : JobOptions} {range : Option (Nat × Nat)} {t : Nat}
    {initFs : List (List String × Nat)}
    (hbad : src.path_exists = false ∨ src.is_dir = false) :
    clean_one stop src out o range t initFs =
      .error ("Source folder not found: " ++ src.name) := by
  unfold clean_one
  rcases hbad with h | h <;> simp [h]

/-- C1 amended: if the first pending source root does not exist or is not a
directory, `clean_one` fails with `FileNotFoundError`; the queue runner's
single `try` block catches it as a fatal error, so the whole queue aborts:
no job outcome is produced and no later source root is processed. -/
theorem missing_source_aborts_queue (stop : Nat → Bool) (out : List String)
    (iy mf fl dd : Bool) (dI : Nat → List (List String × Nat))
    (bad : SourceRoot) (rest : List SourceRoot)
    (hbad : bad.path_exists = false ∨ bad.is_dir = false)
    (h0 : stop 0 = false) :
    (run_queue stop (bad :: rest) out iy mf fl dd dI).jobs = [] ∧
    (run_queue stop (bad :: rest) out iy mf fl dd dI).fatal =
      some ("Source folder not found: " ++ bad.name) := by
  unfold run_queue run_queue_aux
  simp [h0, clean_one_error hbad]

theorem missing_source_aborts_queue_witness :
    (run_queue (fun _ => false)
        [⟨"bad", false, true, []⟩, ⟨"good", true, true, []⟩] ["out"]
        false true true false (fun _ => [])).jobs = [] ∧
    (run_queue (fun _ => false)
        [⟨"bad", false, true, []⟩, ⟨"good", true, true, []⟩] ["out"]
        false true true false (fun _ => [])).fatal =
      some ("Source folder not found: " ++ "bad") :=
  missing_source_aborts_queue (fun _ => false) ["out"] false true true false
    (fun _ => []) ⟨"bad", false, true, []⟩ [⟨"good", true, true, []⟩]
    (Or.inl rfl) rfl

end MloCleaner
namespace MloCleaner

lemma dest_of_head (o : JobOptions) (f : SrcFile) :
    (dest_of o f).headD "" = "stream" := by
  unfold dest_of
  split <;> rfl

lemma with_name_dest_head (o : JobOptions) (f : SrcFile) (nm : String)
    (h : f.rel ≠ []) : (with_name (dest_of o f) nm).headD "" = "stream" := by
  unfold dest_of with_name
  split
  · rfl
  · match hr : f.rel with
    | [] => exact absurd hr h
    | r :: rs => simp [List.dropLast_cons₂]

lemma probeFree_shape (fs : List (List String × Nat)) (dest : List String) :
    ∀ (fuel n : Nat), ∃ m, probeFree fs dest n fuel = alt_name dest m := by
  intro fuel
  induction fuel with
  | zero => intro n; exact ⟨n, rfl⟩
  | succ k ih =>
    intro n
    cases h : lookupA fs (alt_name dest n) with
    | none => exact ⟨n, by simp [probeFree, h]⟩
    | some _ =>
      obtain ⟨m, hm⟩ := ih (n + 1)
      exact ⟨m, by simp [probeFree, h, hm]⟩

lemma alt_name_head (o : JobOptions) (f : SrcFile) (m : Nat) (h : f.rel ≠ []) :
    (alt_name (dest_of o f) m).headD "" = "stream" := by
  unfold alt_name
  exact with_name_dest_head o f _ h

lemma doCopy_fs (f : SrcFile) (st : JobState) (d : List String) :
    (doCopy f st d).fs = (d, f.content) :: st.fs ∨ (doCopy f st d).fs = st.fs := by
  unfold doCopy
  split
  · exact Or.inl rfl
  · exact Or.inr rfl

lemma afterDedup_fs (f : SrcFile) (st : JobState) (d : List String) :
    (afterDedup f st d).fs = st.fs ∨
    ∃ d', (afterDedup f st d).fs = (d', f.content) :: st.fs ∧
          (d' = d ∨ ∃ m, d' = alt_name d m) := by
  unfold afterDedup
  split
  · rcases doCopy_fs f st d with h | h
    · exact Or.inr ⟨d, h, Or.inl rfl⟩
    · exact Or.inl h
  · split
    · exact Or.inl rfl
    · rcases doCopy_fs f
        { st with events := st.events ++
            (if f.hashOk then [] else [.hashWarn f.name]) ++ [.conflict f.name] }
        (probeFree st.fs d 2 (st.fs.length + 1)) with h | h
      · obtain ⟨m, hm⟩ := probeFree_shape st.fs d (st.fs.length + 1) 2
        exact Or.inr ⟨_, h, Or.inr ⟨m, hm⟩⟩
      · exact Or.inl h

lemma stepCore_fs (o : JobOptions) (f : SrcFile) (st : JobState) :
    (stepCore o f st).fs = st.fs ∨
    ∃ d', (stepCore o f st).fs = (d', f.content) :: st.fs ∧
          (d' = dest_of o f ∨ ∃ m, d' = alt_name (dest_of o f) m) := by
  unfold stepCore
  split
  · exact Or.inl rfl
  · split
    · split
      · exact Or.inl rfl
      · split
        · exact Or.inl rfl
        · exact afterDedup_fs f _ (dest_of o f)
    · exact afterDedup_fs f st (dest_of o f)

lemma step_fs (o : JobOptions) (total : Nat) (range : Option (Nat × Nat))
    (i : Nat) (f : SrcFile) (st : JobState) :
    (step o total range i f st).fs = (stepCore o f st).fs := rfl

lemma stepCore_fs_stream (o : JobOptions) (f : SrcFile) (st : JobState)
    (hrel : f.rel ≠ []) :
    ∀ e ∈ (stepCore o f st).fs, e ∈ st.fs ∨ e.1.headD "" = "stream" := by
  intro e he
  rcases stepCore_fs o f st with h | ⟨d', hfs, hd⟩
  · left; rw [h] at he; exact he
  · rw [hfs] at he
    rcases List.mem_cons.1 he with h | h
    · right
      rw [h]
      rcases hd with rfl | ⟨m, rfl⟩
      · exact dest_of_head o f
      · exact alt_name_head o f m hrel
    · left; exact h

end MloCleaner
namespace MloCleaner

lemma copyLoop_fs_stream (stop : Nat → Bool) (o : JobOptions) (total : Nat)
    (range : Option (Nat × Nat)) (init : List (List String × Nat)) :
    ∀ (files : List SrcFile) (i t : Nat) (st : JobState),
      (∀ f ∈ files, f.rel ≠ []) →
      (∀ e ∈ st.fs, e ∈ init ∨ e.1.headD "" = "stream") →
      ∀ e ∈ (copyLoop stop o total range files i t st).1.fs,
        e ∈ init ∨ e.1.headD "" = "stream"
  | [], i, t, st, _, hst, e, he => hst e he
  | f :: rest, i, t, st, hf, hst, e, he => by
    unfold copyLoop at he
    split at he
    · exact hst e he
    · refine copyLoop_fs_stream stop o total range init rest (i + 1) (t + 1)
        (step o total range i f st) (fun g hg => hf g (List.mem_cons_of_mem f hg))
        ?_ e he
      intro e' he'
      rw [step_fs] at he'
      rcases stepCore_fs_stream o f st (hf f (List.mem_cons_self f rest)) e' he' with h | h
      · exact hst e' h
      · exact Or.inr h

/-- C2 amended: for a job over a source root named `R`, the destination root
is `outputDir / (R ++ "_fivem_clean")` (not `R ++ "_clean"` as the claim
states), and every file the job puts into the destination tree — beyond
whatever was already there — lies under the `stream` subdirectory of that
destination root. -/
theorem dest_root_and_stream (stop : Nat → Bool) (src : SourceRoot)
    (out : List String) (o : JobOptions) (range : Option (Nat × Nat)) (t : Nat)
    (initFs : List (List String × Nat))
    (hex : src.path_exists = true) (hdir : src.is_dir = true)
    (hrel : ∀ f ∈ src.files, f.rel ≠ []) :
    ∃ jo t2, clean_one stop src out o range t initFs = .ok (jo, t2) ∧
      jo.result.dest_root = out ++ [src.name ++ "_fivem_clean"] ∧
      ∀ e ∈ jo.state.fs, e ∈ initFs ∨ e.1.headD "" = "stream" := by
  unfold clean_one
  rw [if_neg (by simp [hex, hdir])]
  refine ⟨_, _, rfl, rfl, ?_⟩
  intro e he
  exact copyLoop_fs_stream stop o (max 1 src.files.length) range initFs src.files 1 t
    { fs := initFs, seen := [], copied := 0, skipped := 0, errors := 0,
      events := [], progress := [] } hrel (fun e' he' => Or.inl he') e he

theorem dest_root_and_stream_witness :
    ∃ jo t2,
      clean_one (fun _ => false) ⟨"R", true, true, [⟨"a.ymap", ["a.ymap"], 7, true, true⟩]⟩
        ["out"] ⟨DEFAULT_KEEP_EXTS, false, true, true, false⟩ none 0 [] = .ok (jo, t2) ∧
      jo.result.dest_root = ["out"] ++ ["R" ++ "_fivem_clean"] ∧
      ∀ e ∈ jo.state.fs, e ∈ ([] : List (List String × Nat)) ∨ e.1.headD "" = "stream" :=
  dest_root_and_stream (fun _ => false) ⟨"R", true, true, [⟨"a.ymap", ["a.ymap"], 7, true, true⟩]⟩
    ["out"] ⟨DEFAULT_KEEP_EXTS, false, true, true, false⟩ none 0 [] rfl rfl
    (by decide)

/-- C2 counterexample: for a source root named `R` and output directory
`out`, the computed destination root is `out/R_fivem_clean`, which differs
from the `out/R_clean` the claim states. -/
theorem dest_root_counterexample :
    (clean_one (fun _ => false) ⟨"R", true, true, []⟩ ["out"]
        ⟨DEFAULT_KEEP_EXTS, false, true, true, false⟩ none 0 []).toOption.map
      (fun p => p.1.result.dest_root) = some ["out", "R_fivem_clean"] ∧
    some ["out", "R_fivem_clean"] ≠ some ["out", "R_clean"] := by
  constructor
  · rfl
  · decide

end MloCleaner
namespace MloCleaner

lemma doCopy_progress (f : SrcFile) (st : JobState) (d : List String) :
    (doCopy f st d).progress = st.progress := by
  unfold doCopy
  split <;> rfl

lemma afterDedup_progress (f : SrcFile) (st : JobState) (d : List String) :
    (afterDedup f st d).progress = st.progress := by
  unfold afterDedup
  split
  · exact doCopy_progress f st d
  · split
    · rfl
    · exact doCopy_progress f _ _

lemma stepCore_progress (o : JobOptions) (f : SrcFile) (st : JobState) :
    (stepCore o f st).progress = st.progress := by
  unfold stepCore
  split
  · rfl
  · split
    · split
      · rfl
      · split
        · rfl
        · exact afterDedup_progress f _ _
    · exact afterDedup_progress f st _

lemma step_progress (o : JobOptions) (total : Nat) (range : Option (Nat × Nat))
    (i : Nat) (f : SrcFile) (st : JobState) :
    (step o total range i f st).progress =
      st.progress ++ [progress_pair range i total] := by
  show (stepCore o f st).progress ++ [progress_pair range i total] =
    st.progress ++ [progress_pair range i total]
  rw [stepCore_progress]

lemma doCopy_counts (f : SrcFile) (st : JobState) (d : List String) :
    ((doCopy f st d).copied = st.copied + 1 ∧ (doCopy f st d).skipped = st.skipped ∧
       (doCopy f st d).errors = st.errors) ∨
    ((doCopy f st d).copied = st.copied ∧ (doCopy f st d).skipped = st.skipped ∧
       (doCopy f st d).errors = st.errors + 1) := by
  unfold doCopy
  split
  · exact Or.inl ⟨rfl, rfl, rfl⟩
  · exact Or.inr ⟨rfl, rfl, rfl⟩

lemma afterDedup_counts (f : SrcFile) (st : JobState) (d : List String) :
    ((afterDedup f st d).copied = st.copied + 1 ∧ (afterDedup f st d).skipped = st.skipped ∧
       (afterDedup f st d).errors = st.errors) ∨
    ((afterDedup f st d).copied = st.copied ∧ (afterDedup f st d).skipped = st.skipped + 1 ∧
       (afterDedup f st d).errors = st.errors) ∨
    ((afterDedup f st d).copied = st.copied ∧ (afterDedup f st d).skipped = st.skipped ∧
       (afterDedup f st d).errors = st.errors + 1) := by
  unfold afterDedup
  split
  · rcases doCopy_counts f st d with h | h
    · exact Or.inl h
    · exact Or.inr (Or.inr h)
  · split
    · exact Or.inr (Or.inl ⟨rfl, rfl, rfl⟩)
    · rcases doCopy_counts f
        { st with events := st.events ++
            (if f.hashOk then [] else [.hashWarn f.name]) ++ [.conflict f.name] }
        (probeFree st.fs d 2 (st.fs.length + 1)) with h | h
      · exact Or.inl h
      · exact Or.inr (Or.inr h)

lemma stepCore_counts (o : JobOptions) (f : SrcFile) (st : JobState) :
    ((stepCore o f st).copied = st.copied + 1 ∧ (stepCore o f st).skipped = st.skipped ∧
       (stepCore o f st).errors = st.errors) ∨
    ((stepCore o f st).copied = st.copied ∧ (stepCore o f st).skipped = st.skipped + 1 ∧
       (stepCore o f st).errors = st.errors) ∨
    ((stepCore o f st).copied = st.copied ∧ (stepCore o f st).skipped = st.skipped ∧
       (stepCore o f st).errors = st.errors + 1) := by
  unfold stepCore
  split
  · exact Or.inr (Or.inl ⟨rfl, rfl, rfl⟩)
  · split
    · split
      · exact Or.inr (Or.inr ⟨rfl, rfl, rfl⟩)
      · split
        · exact Or.inr (Or.inl ⟨rfl, rfl, rfl⟩)
        · exact afterDedup_counts f _ _
    · exact afterDedup_counts f st _

lemma stepCore_sumC (o : JobOptions) (f : SrcFile) (st : JobState) :
    sumC (stepCore o f st) = sumC st + 1 := by
  rcases stepCore_counts o f st with ⟨h1, h2, h3⟩ | ⟨h1, h2, h3⟩ | ⟨h1, h2, h3⟩ <;>
    simp [sumC, h1, h2, h3] <;> omega

lemma step_sumC (o : JobOptions) (total : Nat) (range : Option (Nat × Nat))
    (i : Nat) (f : SrcFile) (st : JobState) :
    sumC (step o total range i f st) = sumC st + 1 :=
  stepCore_sumC o f st

lemma copyLoop_nil (stop : Nat → Bool) (o : JobOptions) (total : Nat)
    (range : Option (Nat × Nat)) (i t : Nat) (st : JobState) :
    copyLoop stop o total range [] i t st = (st, t, false) := rfl

lemma copyLoop_cons_stop (stop : Nat → Bool) (o : JobOptions) (total : Nat)
    (range : Option (Nat × Nat)) (f : SrcFile) (rest : List SrcFile)
    (i t : Nat) (st : JobState) (h : stop t = true) :
    copyLoop stop o total range (f :: rest) i t st =
      ({ st with events := st.events ++ [.stopRequested] }, t + 1, true) := by
  simp [copyLoop, h]

lemma copyLoop_cons_go (stop : Nat → Bool) (o : JobOptions) (total : Nat)
    (range : Option (Nat × Nat)) (f : SrcFile) (rest : List SrcFile)
    (i t : Nat) (st : JobState) (h : stop t = false) :
    copyLoop stop o total range (f :: rest) i t st =
      copyLoop stop o total range rest (i + 1) (t + 1) (step o total range i f st) := by
  simp [copyLoop, h]

lemma copyLoop_trace (stop : Nat → Bool) (o : JobOptions) (total : Nat)
    (range : Option (Nat × Nat)) :
    ∀ (files : List SrcFile) (i t : Nat) (st : JobState),
      ∃ k, k ≤ files.length ∧
        (copyLoop stop o total range files i t st).1.progress =
          st.progress ++ (List.range' i k).map (fun j => progress_pair range j total) ∧
        sumC (copyLoop stop o total range files i t st).1 = sumC st + k ∧
        ((copyLoop stop o total range files i t st).2.2 = false → k = files.length)
  | [], i, t, st =>
    ⟨0, Nat.le_refl 0, by simp [copyLoop_nil], by simp [copyLoop_nil], fun _ => rfl⟩
  | f :: rest, i, t, st => by
    cases hstop : stop t with
    | true =>
      rw [copyLoop_cons_stop stop o total range f rest i t st hstop]
      exact ⟨0, Nat.zero_le _, by simp, by simp [sumC], fun hab => by simp at hab⟩
    | false =>
      rw [copyLoop_cons_go stop o total range f rest i t st hstop]
      obtain ⟨k, hk, hprog, hsum, hab⟩ :=
        copyLoop_trace stop o total range rest (i + 1) (t + 1) (step o total range i f st)
      refine ⟨k + 1, Nat.succ_le_succ hk, ?_, ?_, fun h => by simp [hab h]⟩
      · rw [hprog, step_progress, List.range'_succ, List.map_cons, List.append_assoc,
          List.singleton_append]
      · rw [hsum, step_sumC]
        omega

end MloCleaner
namespace MloCleaner

/-- C10: each visited file increments exactly one of the three counters and
produces exactly one progress update, and over a whole per-file loop the
counter sum grows by exactly the number of progress updates, which equals
the number of visited files — all of the file list when no cancellation
break occurred — for every option combination. -/
theorem visited_counter_partition (o : JobOptions) (total : Nat)
    (range : Option (Nat × Nat)) :
    (∀ (i : Nat) (f : SrcFile) (st : JobState),
      (((step o total range i f st).copied = st.copied + 1 ∧
        (step o total range i f st).skipped = st.skipped ∧
        (step o total range i f st).errors = st.errors) ∨
       ((step o total range i f st).copied = st.copied ∧
        (step o total range i f st).skipped = st.skipped + 1 ∧
        (step o total range i f st).errors = st.errors) ∨
       ((step o total range i f st).copied = st.copied ∧
        (step o total range i f st).skipped = st.skipped ∧
        (step o total range i f st).errors = st.errors + 1)) ∧
      (step o total range i f st).progress.length = st.progress.length + 1) ∧
    (∀ (stop : Nat → Bool) (files : List SrcFile) (i t : Nat) (st : JobState),
      ∃ k, k ≤ files.length ∧
        sumC (copyLoop stop o total range files i t st).1 = sumC st + k ∧
        (copyLoop stop o total range files i t st).1.progress.length =
          st.progress.length + k ∧
        ((copyLoop stop o total range files i t st).2.2 = false →
          k = files.length)) := by
  constructor
  · intro i f st
    refine ⟨stepCore_counts o f st, ?_⟩
    rw [step_progress]
    simp
  · intro stop files i t st
    obtain ⟨k, hk, hprog, hsum, hab⟩ := copyLoop_trace stop o total range files i t st
    refine ⟨k, hk, hsum, ?_, hab⟩
    rw [hprog]
    simp

theorem visited_counter_partition_witness :
    ∃ k, k ≤ 2 ∧
      sumC (copyLoop (fun _ => false) ⟨DEFAULT_KEEP_EXTS, false, false, true, true⟩ 2
          (some (0, 100)) [⟨"a.ymap", ["a.ymap"], 7, true, true⟩,
            ⟨"b.txt", ["b.txt"], 8, true, true⟩] 1 0
          { fs := [], seen := [], copied := 0, skipped := 0, errors := 0,
            events := [], progress := [] }).1 =
        sumC { fs := [], seen := [], copied := 0, skipped := 0, errors := 0,
               events := [], progress := [] } + k ∧
      (copyLoop (fun _ => false) ⟨DEFAULT_KEEP_EXTS, false, false, true, true⟩ 2
          (some (0, 100)) [⟨"a.ymap", ["a.ymap"], 7, true, true⟩,
            ⟨"b.txt", ["b.txt"], 8, true, true⟩] 1 0
          { fs := [], seen := [], copied := 0, skipped := 0, errors := 0,
            events := [], progress := [] }).1.progress.length =
        ({ fs := [], seen := [], copied := 0, skipped := 0, errors := 0,
           events := [], progress := [] } : JobState).progress.length + k ∧
      ((copyLoop (fun _ => false) ⟨DEFAULT_KEEP_EXTS, false, false, true, true⟩ 2
          (some (0, 100)) [⟨"a.ymap", ["a.ymap"], 7, true, true⟩,
            ⟨"b.txt", ["b.txt"], 8, true, true⟩] 1 0
          { fs := [], seen := [], copied := 0, skipped := 0, errors := 0,
            events := [], progress := [] }).2.2 = false → k = 2) :=
  (visited_counter_partition ⟨DEFAULT_KEEP_EXTS, false, false, true, true⟩ 2
    (some (0, 100))).2 (fun _ => false)
    [⟨"a.ymap", ["a.ymap"], 7, true, true⟩, ⟨"b.txt", ["b.txt"], 8, true, true⟩] 1 0
    { fs := [], seen := [], copied := 0, skipped := 0, errors := 0,
      events := [], progress := [] }

end MloCleaner
namespace MloCleaner

lemma progress_pair_snd (s e total i : Nat) :
    (progress_pair (some (s, e)) i total).2 = 100 := rfl

lemma clean_one_ok (stop : Nat → Bool) (src : SourceRoot) (out : List String)
    (o : JobOptions) (range : Option (Nat × Nat)) (t : Nat)
    (initFs : List (List String × Nat)) (jo : JobOutcome) (t2 : Nat)
    (hok : clean_one stop src out o range t initFs = .ok (jo, t2)) :
    jo.state =
      { (copyLoop stop o (max 1 src.files.length) range src.files 1 t
          { fs := initFs, seen := [], copied := 0, skipped := 0, errors := 0,
            events := [], progress := [] }).1 with
        events := (copyLoop stop o (max 1 src.files.length) range src.files 1 t
          { fs := initFs, seen := [], copied := 0, skipped := 0, errors := 0,
            events := [], progress := [] }).1.events ++
          [.summary
            (copyLoop stop o (max 1 src.files.length) range src.files 1 t
              { fs := initFs, seen := [], copied := 0, skipped := 0, errors := 0,
                events := [], progress := [] }).1.copied
            (copyLoop stop o (max 1 src.files.length) range src.files 1 t
              { fs := initFs, seen := [], copied := 0, skipped := 0, errors := 0,
                events := [], progress := [] }).1.skipped
            (copyLoop stop o (max 1 src.files.length) range src.files 1 t
              { fs := initFs, seen := [], copied := 0, skipped := 0, errors := 0,
                events := [], progress := [] }).1.errors] } ∧
    jo.result = { copied := jo.state.copied, skipped := jo.state.skipped,
                  errors := jo.state.errors,
                  dest_root := out ++ [src.name ++ "_fivem_clean"] } ∧
    jo.aborted = (copyLoop stop o (max 1 src.files.length) range src.files 1 t
      { fs := initFs, seen := [], copied := 0, skipped := 0, errors := 0,
        events := [], progress := [] }).2.2 ∧
    t2 = (copyLoop stop o (max 1 src.files.length) range src.files 1 t
      { fs := initFs, seen := [], copied := 0, skipped := 0, errors := 0,
        events := [], progress := [] }).2.1 := by
  by_cases hval : src.path_exists = false ∨ src.is_dir = false
  · rw [clean_one, if_pos hval] at hok
    cases hok
  · rw [clean_one, if_neg hval] at hok
    injection hok with h
    injection h with h1 h2
    subst h1
    subst h2
    exact ⟨rfl, rfl, rfl, rfl⟩

end MloCleaner
namespace MloCleaner

end MloCleaner
namespace MloCleaner

lemma run_queue_aux_nil (stop : Nat → Bool) (out : List String) (o : JobOptions)
    (dI : Nat → List (List String × Nat)) (n idx t : Nat) :
    run_queue_aux stop out o dI n [] idx t =
      { jobs := [], fatal := none, stoppedEarly := false } := rfl

lemma run_queue_aux_cons_stop (stop : Nat → Bool) (out : List String)
    (o : JobOptions) (dI : Nat → List (List String × Nat)) (n : Nat)
    (src : SourceRoot) (rest : List SourceRoot) (idx t : Nat)
    (h : stop t = true) :
    run_queue_aux stop out o dI n (src :: rest) idx t =
      { jobs := [], fatal := none, stoppedEarly := true } := by
  simp [run_queue_aux, h]

lemma run_queue_aux_cons_err (stop : Nat → Bool) (out : List String)
    (o : JobOptions) (dI : Nat → List (List String × Nat)) (n : Nat)
    (src : SourceRoot) (rest : List SourceRoot) (idx t : Nat) (msg : String)
    (h : stop t = false)
    (herr : clean_one stop src out o (some (qchunk (idx - 1) n, qchunk idx n))
      (t + 1) (dI idx) = .error msg) :
    run_queue_aux stop out o dI n (src :: rest) idx t =
      { jobs := [], fatal := some msg, stoppedEarly := false } := by
  simp [run_queue_aux, h, herr]

lemma run_queue_aux_cons_ok (stop : Nat → Bool) (out : List String)
    (o : JobOptions) (dI : Nat → List (List String × Nat)) (n : Nat)
    (src : SourceRoot) (rest : List SourceRoot) (idx t : Nat)
    (jo : JobOutcome) (t2 : Nat)
    (h : stop t = false)
    (hok : clean_one stop src out o (some (qchunk (idx - 1) n, qchunk idx n))
      (t + 1) (dI idx) = .ok (jo, t2)) :
    run_queue_aux stop out o dI n (src :: rest) idx t =
      { run_queue_aux stop out o dI n rest (idx + 1) t2 with
        jobs := jo :: (run_queue_aux stop out o dI n rest (idx + 1) t2).jobs } := by
  simp [run_queue_aux, h, hok]

lemma queueTrace_cons (jo : JobOutcome) (js : List JobOutcome) (f : Option String)
    (se : Bool) :
    queueTrace { jobs := jo :: js, fatal := f, stoppedEarly := se } =
      jo.state.progress ++
        queueTrace { jobs := js, fatal := f, stoppedEarly := se } := by
  simp [queueTrace]

lemma queueTrace_mem (q : QueueOutcome) (pr : Nat × Nat) (h : pr ∈ queueTrace q) :
    ∃ (j : Nat) (jo : JobOutcome), q.jobs[j]? = some jo ∧ pr ∈ jo.state.progress := by
  obtain ⟨l, hl, hpl⟩ := List.mem_flatten.1 h
  obtain ⟨jo, hjo, rfl⟩ := List.mem_map.1 hl
  obtain ⟨j, hj⟩ := List.mem_iff_getElem?.1 hjo
  exact ⟨j, jo, hj, hpl⟩

end MloCleaner
namespace MloCleaner

end MloCleaner
namespace MloCleaner

lemma doCopy_seen (f : SrcFile) (st : JobState) (d : List String) :
    (doCopy f st d).seen = st.seen := by
  unfold doCopy
  split <;> rfl

lemma afterDedup_seen (f : SrcFile) (st : JobState) (d : List String) :
    (afterDedup f st d).seen = st.seen := by
  unfold afterDedup
  split
  · exact doCopy_seen f st d
  · split
    · rfl
    · exact doCopy_seen f _ _

lemma stepCore_seen (o : JobOptions) (f : SrcFile) (st : JobState) :
    (stepCore o f st).seen = st.seen ∨
    ((stepCore o f st).seen = (f.content, dest_of o f) :: st.seen ∧
      lookupA st.seen f.content = none) := by
  unfold stepCore
  split
  · exact Or.inl rfl
  · split
    · split
      · exact Or.inl rfl
      · cases hlk : lookupA st.seen f.content with
        | some earlier => exact Or.inl rfl
        | none =>
          refine Or.inr ⟨?_, rfl⟩
          rw [afterDedup_seen]
    · rw [afterDedup_seen]
      exact Or.inl rfl

lemma lookupA_none_keys {α β : Type} [DecidableEq α] (l : List (α × β)) (a : α)
    (h : lookupA l a = none) : a ∉ l.map Prod.fst := by
  induction l with
  | nil => simp
  | cons e t ih =>
    obtain ⟨k, v⟩ := e
    by_cases hk : k = a
    · rw [lookupA, if_pos hk] at h
      cases h
    · rw [lookupA, if_neg hk] at h
      simp only [List.map_cons, List.mem_cons]
      rintro (rfl | hmem)
      · exact hk rfl
      · exact ih h hmem

lemma copyLoop_seen_nodup (stop : Nat → Bool) (o : JobOptions) (total : Nat)
    (range : Option (Nat × Nat)) :
    ∀ (files : List SrcFile) (i t : Nat) (st : JobState),
      (st.seen.map Prod.fst).Nodup →
      (((copyLoop stop o total range files i t st).1.seen.map Prod.fst)).Nodup
  | [], i, t, st, h => by rw [copyLoop_nil]; exact h
  | f :: rest, i, t, st, h => by
    cases hstop : stop t with
    | true =>
      rw [copyLoop_cons_stop stop o total range f rest i t st hstop]
      exact h
    | false =>
      rw [copyLoop_cons_go stop o total range f rest i t st hstop]
      refine copyLoop_seen_nodup stop o total range rest (i + 1) (t + 1)
        (step o total range i f st) ?_
      have hs : (step o total range i f st).seen = (stepCore o f st).seen := rfl
      rw [hs]
      rcases stepCore_seen o f st with heq | ⟨heq, hnone⟩
      · rw [heq]; exact h
      · rw [heq]
        simp only [List.map_cons, List.nodup_cons]
        exact ⟨lookupA_none_keys st.seen f.content hnone, h⟩

end MloCleaner
namespace MloCleaner

lemma clean_one_isOk (stop : Nat → Bool) (src : SourceRoot) (out : List String)
    (o : JobOptions) (range : Option (Nat × Nat)) (t : Nat)
    (initFs : List (List String × Nat))
    (hex : src.path_exists = true) (hdir : src.is_dir = true) :
    ∃ jo t2, clean_one stop src out o range t initFs = .ok (jo, t2) := by
  rw [clean_one, if_neg (by simp [hex, hdir])]
  exact ⟨_, _, rfl⟩

lemma step_dedup_hit (o : JobOptions) (total : Nat) (range : Option (Nat × Nat))
    (i : Nat) (f : SrcFile) (st : JobState) (d : List String)
    (hk : (should_keep_file ⟨f.name, false⟩ o.keep_exts o.include_ybn).1 = true)
    (hd : o.dedupe = true) (hh : f.hashOk = true)
    (hlk : lookupA st.seen f.content = some d) :
    step o total range i f st =
      { st with skipped := st.skipped + 1,
                events := st.events ++ [.deduped f.name (lastComp d)],
                progress := st.progress ++ [progress_pair range i total] } := by
  have hcore : stepCore o f st =
      { st with skipped := st.skipped + 1,
                events := st.events ++ [.deduped f.name (lastComp d)] } := by
    rw [stepCore, if_neg (by simp [hk]), if_pos (by simp [hd]),
      if_neg (by simp [hh]), hlk]
  show { stepCore o f st with
    progress := (stepCore o f st).progress ++ [progress_pair range i total] } = _
  rw [hcore]

end MloCleaner
namespace MloCleaner

lemma step_fresh_copy (o : JobOptions) (total : Nat) (range : Option (Nat × Nat))
    (i : Nat) (f : SrcFile) (st : JobState)
    (hk : (should_keep_file ⟨f.name, false⟩ o.keep_exts o.include_ybn).1 = true)
    (hd : o.dedupe = true) (hh : f.hashOk = true) (hc : f.copyOk = true)
    (hseen : lookupA st.seen f.content = none)
    (hfs : lookupA st.fs (dest_of o f) = none) :
    step o total range i f st =
      { st with fs := (dest_of o f, f.content) :: st.fs,
                seen := (f.content, dest_of o f) :: st.seen,
                copied := st.copied + 1,
                events := st.events ++ [.copyTo f.name (dest_of o f)],
                progress := st.progress ++ [progress_pair range i total] } := by
  have hcore : stepCore o f st =
      { st with fs := (dest_of o f, f.content) :: st.fs,
                seen := (f.content, dest_of o f) :: st.seen,
                copied := st.copied + 1,
                events := st.events ++ [.copyTo f.name (dest_of o f)] } := by
    rw [stepCore, if_neg (by simp [hk]), if_pos (by simp [hd]),
      if_neg (by simp [hh]), hseen]
    show afterDedup f { st with seen := (f.content, dest_of o f) :: st.seen }
      (dest_of o f) = _
    rw [afterDedup]
    have hfs' : lookupA (JobState.fs
        { st with seen := (f.content, dest_of o f) :: st.seen }) (dest_of o f) =
        none := hfs
    rw [hfs']
    rw [doCopy, if_pos (by simp [hc])]
  show { stepCore o f st with
    progress := (stepCore o f st).progress ++ [progress_pair range i total] } = _
  rw [hcore]

end MloCleaner
namespace MloCleaner

/-- C5: with dedupe enabled a content digest enters the dedup index at most
once (the index keys stay duplicate-free over any job), a file whose digest
is already in the index is skipped with a deduped log line and never copied,
and in particular a job over two byte-identical kept files produces exactly
one physical copy, one deduped skip, no errors, and a single index entry. -/
theorem dedupe_single_entry (stop : Nat → Bool) (nm : String) (f1 f2 : SrcFile)
    (out : List String) (o : JobOptions) (range : Option (Nat × Nat)) (t : Nat)
    (hd : o.dedupe = true) (hsame : f2.content = f1.content)
    (hk1 : (should_keep_file ⟨f1.name, false⟩ o.keep_exts o.include_ybn).1 = true)
    (hk2 : (should_keep_file ⟨f2.name, false⟩ o.keep_exts o.include_ybn).1 = true)
    (hh1 : f1.hashOk = true) (hh2 : f2.hashOk = true) (hc1 : f1.copyOk = true)
    (hs0 : stop t = false) (hs1 : stop (t + 1) = false) :
    (∀ (stop' : Nat → Bool) (o' : JobOptions) (total' : Nat)
       (range' : Option (Nat × Nat)) (files : List SrcFile) (i t' : Nat)
       (st : JobState), (st.seen.map Prod.fst).Nodup →
       (((copyLoop stop' o' total' range' files i t' st).1.seen.map Prod.fst)).Nodup) ∧
    (∀ (total' : Nat) (i : Nat) (f : SrcFile) (st : JobState) (d : List String),
       (should_keep_file ⟨f.name, false⟩ o.keep_exts o.include_ybn).1 = true →
       f.hashOk = true → lookupA st.seen f.content = some d →
       (step o total' range i f st).copied = st.copied ∧
       (step o total' range i f st).skipped = st.skipped + 1 ∧
       (step o total' range i f st).fs = st.fs ∧
       (step o total' range i f st).events =
         st.events ++ [.deduped f.name (lastComp d)]) ∧
    (∃ jo t2, clean_one stop ⟨nm, true, true, [f1, f2]⟩ out o range t [] =
        .ok (jo, t2) ∧
      jo.state.copied = 1 ∧ jo.state.skipped = 1 ∧ jo.state.errors = 0 ∧
      jo.state.fs = [(dest_of o f1, f1.content)] ∧
      jo.state.seen = [(f1.content, dest_of o f1)] ∧
      jo.state.events.countP isDedupedEv = 1) := by
  refine ⟨fun stop' o' total' range' files i t' st h =>
    copyLoop_seen_nodup stop' o' total' range' files i t' st h, ?_, ?_⟩
  · intro total' i f st d hk hh hlk
    rw [step_dedup_hit o total' range i f st d hk hd hh hlk]
    exact ⟨rfl, rfl, rfl, rfl⟩
  · obtain ⟨jo, t2, hok⟩ :=
      clean_one_isOk stop ⟨nm, true, true, [f1, f2]⟩ out o range t [] rfl rfl
    obtain ⟨hstate, -, -, -⟩ :=
      clean_one_ok stop ⟨nm, true, true, [f1, f2]⟩ out o range t [] jo t2 hok
    have hf : (SourceRoot.files ⟨nm, true, true, [f1, f2]⟩) = [f1, f2] := rfl
    rw [hf] at hstate
    have hrun : copyLoop stop o (max 1 (List.length [f1, f2])) range [f1, f2] 1 t
        { fs := [], seen := [], copied := 0, skipped := 0, errors := 0,
          events := [], progress := [] } =
        ({ fs := [(dest_of o f1, f1.content)],
           seen := [(f1.content, dest_of o f1)],
           copied := 1, skipped := 1, errors := 0,
           events := [.copyTo f1.name (dest_of o f1),
                      .deduped f2.name (lastComp (dest_of o f1))],
           progress := [progress_pair range 1 (max 1 (List.length [f1, f2])),
                        progress_pair range 2 (max 1 (List.length [f1, f2]))] },
         t + 2, false) := by
      rw [copyLoop_cons_go stop o (max 1 (List.length [f1, f2])) range f1 [f2] 1 t
        { fs := [], seen := [], copied := 0, skipped := 0, errors := 0,
          events := [], progress := [] } hs0]
      rw [step_fresh_copy o (max 1 (List.length [f1, f2])) range 1 f1
        { fs := [], seen := [], copied := 0, skipped := 0, errors := 0,
          events := [], progress := [] } hk1 hd hh1 hc1 rfl rfl]
      rw [copyLoop_cons_go stop o (max 1 (List.length [f1, f2])) range f2 [] 2
        (t + 1) _ hs1]
      rw [step_dedup_hit o (max 1 (List.length [f1, f2])) range 2 f2 _
        (dest_of o f1) hk2 hd hh2 (by simp [lookupA, hsame])]
      rw [copyLoop_nil]
      rfl
    rw [hrun] at hstate
    refine ⟨jo, t2, hok, ?_, ?_, ?_, ?_, ?_, ?_⟩ <;>
      simp [hstate, List.countP_cons, isDedupedEv]

end MloCleaner
namespace MloCleaner

theorem dedupe_single_entry_witness :
    ∃ jo t2,
      clean_one (fun _ => false) ⟨"R", true, true,
          [⟨"a.ymap", ["a.ymap"], 7, true, true⟩,
           ⟨"b.ymap", ["b.ymap"], 7, true, true⟩]⟩ ["out"]
        ⟨DEFAULT_KEEP_EXTS, false, true, true, true⟩ (some (0, 100)) 0 [] =
        .ok (jo, t2) ∧
      jo.state.copied = 1 ∧ jo.state.skipped = 1 ∧ jo.state.errors = 0 ∧
      jo.state.fs = [(dest_of ⟨DEFAULT_KEEP_EXTS, false, true, true, true⟩
          ⟨"a.ymap", ["a.ymap"], 7, true, true⟩,
        (⟨"a.ymap", ["a.ymap"], 7, true, true⟩ : SrcFile).content)] ∧
      jo.state.seen = [((⟨"a.ymap", ["a.ymap"], 7, true, true⟩ : SrcFile).content,
        dest_of ⟨DEFAULT_KEEP_EXTS, false, true, true, true⟩
          ⟨"a.ymap", ["a.ymap"], 7, true, true⟩)] ∧
      jo.state.events.countP isDedupedEv = 1 :=
  (dedupe_single_entry (fun _ => false) "R" ⟨"a.ymap", ["a.ymap"], 7, true, true⟩
    ⟨"b.ymap", ["b.ymap"], 7, true, true⟩ ["out"]
    ⟨DEFAULT_KEEP_EXTS, false, true, true, true⟩ (some (0, 100)) 0
    rfl rfl (by decide) (by decide) rfl rfl rfl rfl rfl).2.2

end MloCleaner
namespace MloCleaner

lemma string_mk_toList (s : String) : String.mk s.toList = s := rfl

lemma stem_append_suffix (nm : String) : py_stem nm ++ py_suffix nm = nm := by
  unfold py_stem py_suffix
  cases h : lastDotIdx nm.toList with
  | none =>
    apply String.ext
    rw [String.data_append]
    show nm.data ++ ("" : String).data = nm.data
    simp
  | some i =>
    dsimp only
    by_cases hcond : 0 < i ∧ i < nm.toList.length - 1
    · rw [if_pos hcond, if_pos hcond]
      apply String.ext
      rw [String.data_append]
      show (nm.toList.take i) ++ (nm.toList.drop i) = nm.data
      rw [List.take_append_drop]
      rfl
    · rw [if_neg hcond, if_neg hcond]
      apply String.ext
      rw [String.data_append]
      show nm.data ++ ("" : String).data = nm.data
      simp

lemma length_stem_suffix (nm : String) :
    (py_stem nm).length + (py_suffix nm).length = nm.length := by
  have h := congrArg String.length (stem_append_suffix nm)
  rw [String.length_append] at h
  exact h

lemma alt_component_ne (nm k : String) :
    py_stem nm ++ "_" ++ k ++ py_suffix nm ≠ nm := by
  intro h
  have hlen := congrArg String.length h
  rw [String.length_append, String.length_append, String.length_append] at hlen
  have hss := length_stem_suffix nm
  have h1 : ("_" : String).length = 1 := rfl
  omega

lemma doCopy_fs_mono (f : SrcFile) (st : JobState) (d : List String)
    (e : List String × Nat) (h : e ∈ st.fs) : e ∈ (doCopy f st d).fs := by
  rcases doCopy_fs f st d with hq | hq <;> rw [hq]
  · exact List.mem_cons_of_mem _ h
  · exact h

lemma stepCore_fs_mono (o : JobOptions) (f : SrcFile) (st : JobState)
    (e : List String × Nat) (h : e ∈ st.fs) : e ∈ (stepCore o f st).fs := by
  rcases stepCore_fs o f st with hq | ⟨d', hq, -⟩ <;> rw [hq]
  · exact h
  · exact List.mem_cons_of_mem _ h

lemma copyLoop_fs_mono (stop : Nat → Bool) (o : JobOptions) (total : Nat)
    (range : Option (Nat × Nat)) :
    ∀ (files : List SrcFile) (i t : Nat) (st : JobState) (e : List String × Nat),
      e ∈ st.fs → e ∈ (copyLoop stop o total range files i t st).1.fs
  | [], i, t, st, e, h => by rw [copyLoop_nil]; exact h
  | f :: rest, i, t, st, e, h => by
    cases hstop : stop t with
    | true =>
      rw [copyLoop_cons_stop stop o total range f rest i t st hstop]
      exact h
    | false =>
      rw [copyLoop_cons_go stop o total range f rest i t st hstop]
      exact copyLoop_fs_mono stop o total range rest (i + 1) (t + 1)
        (step o total range i f st) e (stepCore_fs_mono o f st e h)

lemma probeFree_first (fs : List (List String × Nat)) (dest : List String)
    (n fuel : Nat) (h : lookupA fs (alt_name dest n) = none) :
    probeFree fs dest n (fuel + 1) = alt_name dest n := by
  rw [probeFree, h]

end MloCleaner
namespace MloCleaner

lemma step_plain_copy (o : JobOptions) (total : Nat) (range : Option (Nat × Nat))
    (i : Nat) (f : SrcFile) (st : JobState)
    (hk : (should_keep_file ⟨f.name, false⟩ o.keep_exts o.include_ybn).1 = true)
    (hd : o.dedupe = false) (hc : f.copyOk = true)
    (hfs : lookupA st.fs (dest_of o f) = none) :
    step o total range i f st =
      { st with fs := (dest_of o f, f.content) :: st.fs,
                copied := st.copied + 1,
                events := st.events ++ [.copyTo f.name (dest_of o f)],
                progress := st.progress ++ [progress_pair range i total] } := by
  have hcore : stepCore o f st =
      { st with fs := (dest_of o f, f.content) :: st.fs,
                copied := st.copied + 1,
                events := st.events ++ [.copyTo f.name (dest_of o f)] } := by
    rw [stepCore, if_neg (by simp [hk]), if_neg (by simp [hd]), afterDedup, hfs,
      doCopy, if_pos (by simp [hc])]
  show { stepCore o f st with
    progress := (stepCore o f st).progress ++ [progress_pair range i total] } = _
  rw [hcore]

lemma step_conflict_copy (o : JobOptions) (total : Nat) (range : Option (Nat × Nat))
    (i : Nat) (f : SrcFile) (st : JobState) (c : Nat)
    (hk : (should_keep_file ⟨f.name, false⟩ o.keep_exts o.include_ybn).1 = true)
    (hd : o.dedupe = false) (hh : f.hashOk = true) (hc : f.copyOk = true)
    (hfs : lookupA st.fs (dest_of o f) = some c) (hcc : c ≠ f.content) :
    step o total range i f st =
      { st with fs := (probeFree st.fs (dest_of o f) 2 (st.fs.length + 1),
                        f.content) :: st.fs,
                copied := st.copied + 1,
                events := st.events ++ [.conflict f.name,
                  .copyTo f.name (probeFree st.fs (dest_of o f) 2 (st.fs.length + 1))],
                progress := st.progress ++ [progress_pair range i total] } := by
  have hcore : stepCore o f st =
      { st with fs := (probeFree st.fs (dest_of o f) 2 (st.fs.length + 1),
                        f.content) :: st.fs,
                copied := st.copied + 1,
                events := st.events ++ [.conflict f.name,
                  .copyTo f.name
                    (probeFree st.fs (dest_of o f) 2 (st.fs.length + 1))] } := by
    rw [stepCore, if_neg (by simp [hk]), if_neg (by simp [hd]), afterDedup, hfs]
    dsimp only
    rw [if_neg (show ¬(f.hashOk = true ∧ c = f.content) by simp [hcc])]
    rw [show (if f.hashOk then ([] : List LogEvent) else [.hashWarn f.name]) = []
      by simp [hh]]
    rw [doCopy, if_pos (by simp [hc])]
    simp
  show { stepCore o f st with
    progress := (stepCore o f st).progress ++ [progress_pair range i total] } = _
  rw [hcore]

end MloCleaner
namespace MloCleaner

lemma alt2_component_ne (nm : String) :
    py_stem nm ++ "_2" ++ py_suffix nm ≠ nm := by
  have h := alt_component_ne nm "2"
  rw [String.append_assoc (py_stem nm) "_" "2"] at h
  rw [show ("_" : String) ++ "2" = "_2" from rfl] at h
  exact h

lemma alt_name_two (nm : String) :
    alt_name ["stream", nm] 2 =
      ["stream", py_stem nm ++ "_2" ++ py_suffix nm] := by
  rw [alt_name]
  rw [show lastComp ["stream", nm] = nm from rfl]
  rw [with_name]
  rw [String.append_assoc (py_stem nm) "_" (toString 2)]
  rw [show ("_" : String) ++ toString 2 = "_2" from rfl]
  rfl

lemma stream_alt2_ne (nm : String) :
    (["stream", nm] : List String) ≠
      ["stream", py_stem nm ++ "_2" ++ py_suffix nm] := by
  intro h
  simp only [List.cons.injEq, and_true] at h
  exact alt2_component_ne nm h.2.symm

end MloCleaner
namespace MloCleaner

/-- C6: entries already in the destination tree are never removed or
overwritten by the per-file loop, and a job over two kept files of distinct
content that map to the same destination name copies both: the first to
`stream/name`, the second — after one `name_2.ext` probe announced by a
conflict log line — to `stream/(stem_2 ++ ext)`, each with its original
content. -/
theorem conflict_suffix_no_overwrite (stop : Nat → Bool) (nm : String)
    (f1 f2 : SrcFile) (out : List String) (o : JobOptions)
    (range : Option (Nat × Nat)) (t : Nat)
    (hfl : o.flatten_stream = true) (hd : o.dedupe = false)
    (hname : f2.name = f1.name) (hdiff : f2.content ≠ f1.content)
    (hk1 : (should_keep_file ⟨f1.name, false⟩ o.keep_exts o.include_ybn).1 = true)
    (hk2 : (should_keep_file ⟨f2.name, false⟩ o.keep_exts o.include_ybn).1 = true)
    (hh2 : f2.hashOk = true) (hc1 : f1.copyOk = true) (hc2 : f2.copyOk = true)
    (hs0 : stop t = false) (hs1 : stop (t + 1) = false) :
    (∀ (stop' : Nat → Bool) (o' : JobOptions) (total' : Nat)
       (range' : Option (Nat × Nat)) (files : List SrcFile) (i t' : Nat)
       (st : JobState) (e : List String × Nat),
       e ∈ st.fs → e ∈ (copyLoop stop' o' total' range' files i t' st).1.fs) ∧
    (∃ jo t2, clean_one stop ⟨nm, true, true, [f1, f2]⟩ out o range t [] =
        .ok (jo, t2) ∧
      jo.state.copied = 2 ∧ jo.state.errors = 0 ∧
      jo.state.fs =
        [(["stream", py_stem f1.name ++ "_2" ++ py_suffix f1.name], f2.content),
         (["stream", f1.name], f1.content)] ∧
      lookupA jo.state.fs ["stream", f1.name] = some f1.content ∧
      lookupA jo.state.fs
        ["stream", py_stem f1.name ++ "_2" ++ py_suffix f1.name] =
          some f2.content ∧
      jo.state.events.countP
        (fun ev => match ev with | .conflict _ => true | _ => false) = 1) := by
  refine ⟨fun stop' o' total' range' files i t' st e he =>
    copyLoop_fs_mono stop' o' total' range' files i t' st e he, ?_⟩
  obtain ⟨jo, t2, hok⟩ :=
    clean_one_isOk stop ⟨nm, true, true, [f1, f2]⟩ out o range t [] rfl rfl
  obtain ⟨hstate, -, -, -⟩ :=
    clean_one_ok stop ⟨nm, true, true, [f1, f2]⟩ out o range t [] jo t2 hok
  have hf : (SourceRoot.files ⟨nm, true, true, [f1, f2]⟩) = [f1, f2] := rfl
  rw [hf] at hstate
  have hd1 : dest_of o f1 = ["stream", f1.name] := by simp [dest_of, hfl]
  have hd2 : dest_of o f2 = ["stream", f1.name] := by simp [dest_of, hfl, hname]
  have hne := stream_alt2_ne f1.name
  have hP : probeFree [(["stream", f1.name], f1.content)] ["stream", f1.name] 2
      ([((["stream", f1.name] : List String), f1.content)].length + 1) =
      ["stream", py_stem f1.name ++ "_2" ++ py_suffix f1.name] := by
    have hlook : lookupA [((["stream", f1.name] : List String), f1.content)]
        (alt_name ["stream", f1.name] 2) = none := by
      rw [alt_name_two, lookupA, if_neg hne, lookupA]
    have h := probeFree_first [(["stream", f1.name], f1.content)]
      ["stream", f1.name] 2 [((["stream", f1.name] : List String), f1.content)].length
      hlook
    rw [alt_name_two] at h
    exact h
  have hrun : copyLoop stop o (max 1 (List.length [f1, f2])) range [f1, f2] 1 t
      { fs := [], seen := [], copied := 0, skipped := 0, errors := 0,
        events := [], progress := [] } =
      ({ fs := [(["stream", py_stem f1.name ++ "_2" ++ py_suffix f1.name],
                 f2.content),
                (["stream", f1.name], f1.content)],
         seen := [], copied := 2, skipped := 0, errors := 0,
         events := [.copyTo f1.name (["stream", f1.name]),
                    .conflict f2.name,
                    .copyTo f2.name
                      ["stream", py_stem f1.name ++ "_2" ++ py_suffix f1.name]],
         progress := [progress_pair range 1 (max 1 (List.length [f1, f2])),
                      progress_pair range 2 (max 1 (List.length [f1, f2]))] },
       t + 2, false) := by
    rw [copyLoop_cons_go stop o (max 1 (List.length [f1, f2])) range f1 [f2] 1 t
      { fs := [], seen := [], copied := 0, skipped := 0, errors := 0,
        events := [], progress := [] } hs0]
    rw [step_plain_copy o (max 1 (List.length [f1, f2])) range 1 f1
      { fs := [], seen := [], copied := 0, skipped := 0, errors := 0,
        events := [], progress := [] } hk1 hd hc1 rfl]
    rw [hd1]
    rw [copyLoop_cons_go stop o (max 1 (List.length [f1, f2])) range f2 [] 2
      (t + 1) _ hs1]
    rw [step_conflict_copy o (max 1 (List.length [f1, f2])) range 2 f2
      { fs := [(["stream", f1.name], f1.content)], seen := [], copied := 0 + 1,
        skipped := 0, errors := 0,
        events := [] ++ [.copyTo f1.name (["stream", f1.name])],
        progress := [] ++ [progress_pair range 1 (max 1 (List.length [f1, f2]))] }
      f1.content hk2 hd hh2 hc2
      (by rw [hd2]; rw [lookupA]; rw [if_pos rfl])
      (fun hcc => hdiff hcc.symm)]
    rw [copyLoop_nil]
    have hfs1 : JobState.fs
        { fs := [(["stream", f1.name], f1.content)], seen := [],
          copied := 0 + 1, skipped := 0, errors := 0,
          events := [] ++ [.copyTo f1.name (["stream", f1.name])],
          progress := [] ++
            [progress_pair range 1 (max 1 (List.length [f1, f2]))] } =
        [(["stream", f1.name], f1.content)] := rfl
    rw [hfs1, hd2, hP]
    simp
  rw [hrun] at hstate
  refine ⟨jo, t2, hok, ?_, ?_, ?_, ?_, ?_, ?_⟩
  · rw [hstate]
  · rw [hstate]
  · rw [hstate]
  · rw [hstate]
    show lookupA [(["stream", py_stem f1.name ++ "_2" ++ py_suffix f1.name],
        f2.content), (["stream", f1.name], f1.content)] ["stream", f1.name] =
      some f1.content
    rw [lookupA, if_neg (Ne.symm hne), lookupA, if_pos rfl]
  · rw [hstate]
    show lookupA [(["stream", py_stem f1.name ++ "_2" ++ py_suffix f1.name],
        f2.content), (["stream", f1.name], f1.content)]
      ["stream", py_stem f1.name ++ "_2" ++ py_suffix f1.name] = some f2.content
    rw [lookupA, if_pos rfl]
  · rw [hstate]
    simp [List.countP_cons]

end MloCleaner
namespace MloCleaner

theorem conflict_suffix_no_overwrite_witness :
    ∃ jo t2,
      clean_one (fun _ => false) ⟨"R", true, true,
          [⟨"x.ymap", ["x.ymap"], 1, true, true⟩,
           ⟨"x.ymap", ["d", "x.ymap"], 2, true, true⟩]⟩ ["out"]
        ⟨DEFAULT_KEEP_EXTS, false, false, true, false⟩ (some (0, 100)) 0 [] =
        .ok (jo, t2) ∧
      jo.state.copied = 2 ∧ jo.state.errors = 0 ∧
      jo.state.fs =
        [(["stream", py_stem "x.ymap" ++ "_2" ++ py_suffix "x.ymap"],
          (⟨"x.ymap", ["d", "x.ymap"], 2, true, true⟩ : SrcFile).content),
         (["stream", "x.ymap"],
          (⟨"x.ymap", ["x.ymap"], 1, true, true⟩ : SrcFile).content)] ∧
      lookupA jo.state.fs ["stream", "x.ymap"] =
        some (⟨"x.ymap", ["x.ymap"], 1, true, true⟩ : SrcFile).content ∧
      lookupA jo.state.fs
        ["stream", py_stem "x.ymap" ++ "_2" ++ py_suffix "x.ymap"] =
          some (⟨"x.ymap", ["d", "x.ymap"], 2, true, true⟩ : SrcFile).content ∧
      jo.state.events.countP
        (fun ev => match ev with | .conflict _ => true | _ => false) = 1 :=
  (conflict_suffix_no_overwrite (fun _ => false) "R"
    ⟨"x.ymap", ["x.ymap"], 1, true, true⟩
    ⟨"x.ymap", ["d", "x.ymap"], 2, true, true⟩ ["out"]
    ⟨DEFAULT_KEEP_EXTS, false, false, true, false⟩ (some (0, 100)) 0
    rfl rfl rfl (by decide) (by decide) (by decide) rfl rfl rfl rfl rfl).2

end MloCleaner
namespace MloCleaner

lemma doCopy_fail (f : SrcFile) (st : JobState) (d : List String)
    (hcopy : f.copyOk = false) :
    doCopy f st d =
      { st with errors := st.errors + 1,
                events := st.events ++ [.errorCaught f.name] } := by
  rw [doCopy, if_neg (by simp [hcopy])]

lemma afterDedup_fail (f : SrcFile) (st : JobState) (d : List String)
    (hcopy : f.copyOk = false)
    (hdest : ∀ c, lookupA st.fs d = some c → ¬(f.hashOk = true ∧ c = f.content)) :
    (afterDedup f st d).errors = st.errors + 1 ∧
    (afterDedup f st d).copied = st.copied ∧
    (afterDedup f st d).skipped = st.skipped ∧
    (afterDedup f st d).fs = st.fs ∧
    (afterDedup f st d).events.countP isErrorEv =
      st.events.countP isErrorEv + 1 := by
  rw [afterDedup]
  cases hlk : lookupA st.fs d with
  | none =>
    rw [doCopy_fail f st d hcopy]
    refine ⟨rfl, rfl, rfl, rfl, ?_⟩
    simp [List.countP_append, List.countP_cons, isErrorEv]
  | some c =>
    dsimp only
    rw [if_neg (hdest c hlk)]
    rw [doCopy_fail f _ _ hcopy]
    refine ⟨rfl, rfl, rfl, rfl, ?_⟩
    show ((st.events ++ (if f.hashOk then ([] : List LogEvent)
        else [LogEvent.hashWarn f.name]) ++
      [LogEvent.conflict f.name]) ++ [LogEvent.errorCaught f.name]).countP
        isErrorEv = st.events.countP isErrorEv + 1
    cases f.hashOk <;>
      simp [List.countP_append, List.countP_cons, isErrorEv]

lemma stepCore_copy_fail (o : JobOptions) (f : SrcFile) (st : JobState)
    (hk : (should_keep_file ⟨f.name, false⟩ o.keep_exts o.include_ybn).1 = true)
    (hded : o.dedupe = true → f.hashOk = true ∧ lookupA st.seen f.content = none)
    (hdest : ∀ c, lookupA st.fs (dest_of o f) = some c →
      ¬(f.hashOk = true ∧ c = f.content))
    (hcopy : f.copyOk = false) :
    (stepCore o f st).errors = st.errors + 1 ∧
    (stepCore o f st).copied = st.copied ∧
    (stepCore o f st).skipped = st.skipped ∧
    (stepCore o f st).fs = st.fs ∧
    (stepCore o f st).events.countP isErrorEv =
      st.events.countP isErrorEv + 1 := by
  rw [stepCore, if_neg (by simp [hk])]
  cases hd : o.dedupe with
  | false =>
    rw [if_neg (by simp)]
    exact afterDedup_fail f st (dest_of o f) hcopy hdest
  | true =>
    rw [if_pos rfl]
    obtain ⟨hh, hlk⟩ := hded hd
    rw [if_neg (by simp [hh]), hlk]
    exact afterDedup_fail f { st with seen := (f.content, dest_of o f) :: st.seen }
      (dest_of o f) hcopy hdest

lemma clean_one_summary (stop : Nat → Bool) (src : SourceRoot) (out : List String)
    (o : JobOptions) (range : Option (Nat × Nat)) (t : Nat)
    (initFs : List (List String × Nat))
    (hex : src.path_exists = true) (hdir : src.is_dir = true) :
    ∃ jo t2, clean_one stop src out o range t initFs = .ok (jo, t2) ∧
      LogEvent.summary jo.state.copied jo.state.skipped jo.state.errors ∈
        jo.state.events ∧
      jo.result.copied = jo.state.copied ∧
      jo.result.skipped = jo.state.skipped ∧
      jo.result.errors = jo.state.errors ∧
      jo.result.dest_root = out ++ [src.name ++ "_fivem_clean"] := by
  obtain ⟨jo, t2, hok⟩ := clean_one_isOk stop src out o range t initFs hex hdir
  obtain ⟨hstate, hres, -, -⟩ :=
    clean_one_ok stop src out o range t initFs jo t2 hok
  refine ⟨jo, t2, hok, ?_, ?_, ?_, ?_, ?_⟩
  · rw [hstate]
    simp
  · rw [hres]
  · rw [hres]
  · rw [hres]
  · rw [hres]

end MloCleaner
namespace MloCleaner

/-- C9: when the copy of a visited file is attempted and the underlying I/O
fails, the error counter advances by one (and exactly one error line is
logged) while copied and skipped counts and the destination tree are
untouched; the loop then continues with the next file in enumeration order,
and the job still ends with its summary line and a returned result tuple
carrying the accumulated counters. -/
theorem copy_error_is_local (o : JobOptions) (f : SrcFile) (st : JobState)
    (hk : (should_keep_file ⟨f.name, false⟩ o.keep_exts o.include_ybn).1 = true)
    (hded : o.dedupe = true → f.hashOk = true ∧ lookupA st.seen f.content = none)
    (hdest : ∀ c, lookupA st.fs (dest_of o f) = some c →
      ¬(f.hashOk = true ∧ c = f.content))
    (hcopy : f.copyOk = false) :
    ((stepCore o f st).errors = st.errors + 1 ∧
     (stepCore o f st).copied = st.copied ∧
     (stepCore o f st).skipped = st.skipped ∧
     (stepCore o f st).fs = st.fs ∧
     (stepCore o f st).events.countP isErrorEv =
       st.events.countP isErrorEv + 1) ∧
    (∀ (stop : Nat → Bool) (total : Nat) (range : Option (Nat × Nat))
       (i t : Nat) (rest : List SrcFile), stop t = false →
       copyLoop stop o total range (f :: rest) i t st =
         copyLoop stop o total range rest (i + 1) (t + 1)
           (step o total range i f st)) ∧
    (∀ (stop : Nat → Bool) (src : SourceRoot) (out : List String)
       (range : Option (Nat × Nat)) (t : Nat)
       (initFs : List (List String × Nat)),
       src.path_exists = true → src.is_dir = true →
       ∃ jo t2, clean_one stop src out o range t initFs = .ok (jo, t2) ∧
         LogEvent.summary jo.state.copied jo.state.skipped jo.state.errors ∈
           jo.state.events ∧
         jo.result.copied = jo.state.copied ∧
         jo.result.skipped = jo.state.skipped ∧
         jo.result.errors = jo.state.errors) := by
  refine ⟨stepCore_copy_fail o f st hk hded hdest hcopy, ?_, ?_⟩
  · intro stop total range i t rest hstop
    exact copyLoop_cons_go stop o total range f rest i t st hstop
  · intro stop src out range t initFs hex hdir
    obtain ⟨jo, t2, hok, hsum, h1, h2, h3, -⟩ :=
      clean_one_summary stop src out o range t initFs hex hdir
    exact ⟨jo, t2, hok, hsum, h1, h2, h3⟩

theorem copy_error_is_local_witness :
    (stepCore ⟨DEFAULT_KEEP_EXTS, false, false, true, false⟩
        ⟨"a.ymap", ["a.ymap"], 7, true, false⟩
        { fs := [], seen := [], copied := 0, skipped := 0, errors := 0,
          events := [], progress := [] }).errors =
      ({ fs := [], seen := [], copied := 0, skipped := 0, errors := 0,
         events := [], progress := [] } : JobState).errors + 1 ∧
    (stepCore ⟨DEFAULT_KEEP_EXTS, false, false, true, false⟩
        ⟨"a.ymap", ["a.ymap"], 7, true, false⟩
        { fs := [], seen := [], copied := 0, skipped := 0, errors := 0,
          events := [], progress := [] }).copied =
      ({ fs := [], seen := [], copied := 0, skipped := 0, errors := 0,
         events := [], progress := [] } : JobState).copied ∧
    (stepCore ⟨DEFAULT_KEEP_EXTS, false, false, true, false⟩
        ⟨"a.ymap", ["a.ymap"], 7, true, false⟩
        { fs := [], seen := [], copied := 0, skipped := 0, errors := 0,
          events := [], progress := [] }).skipped =
      ({ fs := [], seen := [], copied := 0, skipped := 0, errors := 0,
         events := [], progress := [] } : JobState).skipped ∧
    (stepCore ⟨DEFAULT_KEEP_EXTS, false, false, true, false⟩
        ⟨"a.ymap", ["a.ymap"], 7, true, false⟩
        { fs := [], seen := [], copied := 0, skipped := 0, errors := 0,
          events := [], progress := [] }).fs =
      ({ fs := [], seen := [], copied := 0, skipped := 0, errors := 0,
         events := [], progress := [] } : JobState).fs ∧
    ((stepCore ⟨DEFAULT_KEEP_EXTS, false, false, true, false⟩
        ⟨"a.ymap", ["a.ymap"], 7, true, false⟩
        { fs := [], seen := [], copied := 0, skipped := 0, errors := 0,
          events := [], progress := [] }).events.countP isErrorEv =
      ({ fs := [], seen := [], copied := 0, skipped := 0, errors := 0,
         events := [], progress := [] } : JobState).events.countP isErrorEv + 1) :=
  (copy_error_is_local ⟨DEFAULT_KEEP_EXTS, false, false, true, false⟩
    ⟨"a.ymap", ["a.ymap"], 7, true, false⟩
    { fs := [], seen := [], copied := 0, skipped := 0, errors := 0,
      events := [], progress := [] }
    (by decide) (fun h => by cases h) (fun c hc => by cases hc) rfl).1

end MloCleaner
namespace MloCleaner

lemma copyLoop_nostop_time (o : JobOptions) (total : Nat)
    (range : Option (Nat × Nat)) :
    ∀ (files : List SrcFile) (i t : Nat) (st : JobState),
      (copyLoop (fun _ => false) o total range files i t st).2.1 =
        t + files.length
  | [], i, t, st => by rw [copyLoop_nil]; rfl
  | f :: rest, i, t, st => by
    rw [copyLoop_cons_go (fun _ => false) o total range f rest i t st rfl]
    rw [copyLoop_nostop_time o total range rest (i + 1) (t + 1)]
    simp
    omega

lemma copyLoop_break_at (stop : Nat → Bool) (o : JobOptions) (total : Nat)
    (range : Option (Nat × Nat)) :
    ∀ (files : List SrcFile) (m i t : Nat) (st : JobState),
      m < files.length → stop (t + m) = true →
      (∀ j, j < m → stop (t + j) = false) →
      copyLoop stop o total range files i t st =
        ({ (copyLoop (fun _ => false) o total range (files.take m) i t st).1 with
           events := (copyLoop (fun _ => false) o total range (files.take m) i t
             st).1.events ++ [.stopRequested] },
         t + m + 1, true)
  | [], m, i, t, st, hm, _, _ => absurd hm (by simp)
  | f :: rest, 0, i, t, st, hm, hstop, hall => by
    rw [copyLoop_cons_stop stop o total range f rest i t st (by simpa using hstop)]
    rw [List.take_zero, copyLoop_nil]
  | f :: rest, m + 1, i, t, st, hm, hstop, hall => by
    rw [copyLoop_cons_go stop o total range f rest i t st
      (by simpa using hall 0 (Nat.succ_pos m))]
    rw [copyLoop_break_at stop o total range rest m (i + 1) (t + 1)
      (step o total range i f st) (by simpa using hm)
      (by rw [show t + 1 + m = t + (m + 1) from by omega]; exact hstop)
      (fun j hj => by
        rw [show t + 1 + j = t + (j + 1) from by omega]
        exact hall (j + 1) (Nat.succ_lt_succ hj))]
    rw [show (f :: rest).take (m + 1) = f :: rest.take m from rfl]
    rw [copyLoop_cons_go (fun _ => false) o total range f (rest.take m) i t st rfl]
    rw [show t + 1 + m + 1 = t + (m + 1) + 1 from by omega]

lemma copyLoop_abort_stop (stop : Nat → Bool) (o : JobOptions) (total : Nat)
    (range : Option (Nat × Nat)) :
    ∀ (files : List SrcFile) (i t : Nat) (st : JobState),
      (copyLoop stop o total range files i t st).2.2 = true →
      ∃ tb, t ≤ tb ∧ stop tb = true ∧
        (copyLoop stop o total range files i t st).2.1 = tb + 1
  | [], i, t, st, hab => by rw [copyLoop_nil] at hab; cases hab
  | f :: rest, i, t, st, hab => by
    cases hstop : stop t with
    | true =>
      rw [copyLoop_cons_stop stop o total range f rest i t st hstop]
      exact ⟨t, Nat.le_refl t, hstop, rfl⟩
    | false =>
      rw [copyLoop_cons_go stop o total range f rest i t st hstop] at hab ⊢
      obtain ⟨tb, htb, hs, ht⟩ :=
        copyLoop_abort_stop stop o total range rest (i + 1) (t + 1)
          (step o total range i f st) hab
      exact ⟨tb, Nat.le_trans (Nat.le_succ t) htb, hs, ht⟩

lemma run_queue_aux_stopped (stop : Nat → Bool) (out : List String)
    (o : JobOptions) (dI : Nat → List (List String × Nat)) (n : Nat)
    (srcs : List SourceRoot) (idx t : Nat) (h : stop t = true) :
    (run_queue_aux stop out o dI n srcs idx t).jobs = [] := by
  cases srcs with
  | nil => rfl
  | cons src rest =>
    rw [run_queue_aux_cons_stop stop out o dI n src rest idx t h]

lemma run_queue_aux_abort_last (stop : Nat → Bool) (out : List String)
    (o : JobOptions) (dI : Nat → List (List String × Nat)) (n : Nat)
    (hmono : ∀ a b, a ≤ b → stop a = true → stop b = true) :
    ∀ (srcs : List SourceRoot) (idx t : Nat) (j : Nat) (jo : JobOutcome),
      (run_queue_aux stop out o dI n srcs idx t).jobs[j]? = some jo →
      jo.aborted = true →
      (run_queue_aux stop out o dI n srcs idx t).jobs.length = j + 1
  | [], idx, t, j, jo, hj, _ => by rw [run_queue_aux_nil] at hj; cases hj
  | src :: rest, idx, t, j, jo, hj, hab => by
    cases hstop : stop t with
    | true =>
      rw [run_queue_aux_cons_stop stop out o dI n src rest idx t hstop] at hj
      cases hj
    | false =>
      cases hc : clean_one stop src out o
          (some (qchunk (idx - 1) n, qchunk idx n)) (t + 1) (dI idx) with
      | error msg =>
        rw [run_queue_aux_cons_err stop out o dI n src rest idx t msg hstop hc]
          at hj
        cases hj
      | ok p =>
        obtain ⟨jo0, t2⟩ := p
        rw [run_queue_aux_cons_ok stop out o dI n src rest idx t jo0 t2 hstop hc]
          at hj ⊢
        cases j with
        | zero =>
          rw [List.getElem?_cons_zero] at hj
          injection hj with hj
          subst hj
          obtain ⟨-, -, habort, htime⟩ :=
            clean_one_ok stop src out o
              (some (qchunk (idx - 1) n, qchunk idx n)) (t + 1) (dI idx)
              jo0 t2 hc
          rw [habort] at hab
          obtain ⟨tb, htb, hs, ht⟩ :=
            copyLoop_abort_stop stop o (max 1 src.files.length)
              (some (qchunk (idx - 1) n, qchunk idx n)) src.files 1 (t + 1)
              { fs := dI idx, seen := [], copied := 0, skipped := 0, errors := 0,
                events := [], progress := [] } hab
          have hst2 : stop t2 = true := by
            rw [htime, ht]
            exact hmono tb (tb + 1) (Nat.le_succ tb) hs
          have hrest := run_queue_aux_stopped stop out o dI n rest (idx + 1) t2
            hst2
          simp [hrest]
        | succ j =>
          rw [List.getElem?_cons_succ] at hj
          have := run_queue_aux_abort_last stop out o dI n hmono rest (idx + 1)
            t2 j jo hj hab
          simp [this]

end MloCleaner
namespace MloCleaner

/-- C8: a set cancellation flag makes the per-file loop break at the first
per-file check that observes it — the files processed are exactly the prefix
before that check, so unvisited files touch no counter and no file system
state; a job over a valid source root still returns an `ok` result whose
tuple carries the accumulated counters together with a summary line; once
the (monotone) flag is set, an aborted job is the last job the queue starts;
and the flag is read exactly once per file inside a job (the loop consumes
one tick per file), plus once before each job at the queue level. -/
theorem cancellation_cooperative :
    (∀ (stop : Nat → Bool) (o : JobOptions) (total : Nat)
       (range : Option (Nat × Nat)) (files : List SrcFile) (m i t : Nat)
       (st : JobState),
       m < files.length → stop (t + m) = true →
       (∀ j, j < m → stop (t + j) = false) →
       copyLoop stop o total range files i t st =
         ({ (copyLoop (fun _ => false) o total range (files.take m) i t st).1 with
            events := (copyLoop (fun _ => false) o total range (files.take m) i t
              st).1.events ++ [.stopRequested] },
          t + m + 1, true)) ∧
    (∀ (stop : Nat → Bool) (src : SourceRoot) (out : List String)
       (o : JobOptions) (range : Option (Nat × Nat)) (t : Nat)
       (initFs : List (List String × Nat)),
       src.path_exists = true → src.is_dir = true →
       ∃ jo t2, clean_one stop src out o range t initFs = .ok (jo, t2) ∧
         LogEvent.summary jo.state.copied jo.state.skipped jo.state.errors ∈
           jo.state.events ∧
         jo.result.copied = jo.state.copied ∧
         jo.result.skipped = jo.state.skipped ∧
         jo.result.errors = jo.state.errors) ∧
    (∀ (stop : Nat → Bool) (sources : List SourceRoot) (out : List String)
       (iy mf fl dd : Bool) (dI : Nat → List (List String × Nat)),
       (∀ a b, a ≤ b → stop a = true → stop b = true) →
       ∀ (j : Nat) (jo : JobOutcome),
         (run_queue stop sources out iy mf fl dd dI).jobs[j]? = some jo →
         jo.aborted = true →
         (run_queue stop sources out iy mf fl dd dI).jobs.length = j + 1) ∧
    (∀ (o : JobOptions) (total : Nat) (range : Option (Nat × Nat))
       (files : List SrcFile) (i t : Nat) (st : JobState),
       (copyLoop (fun _ => false) o total range files i t st).2.1 =
         t + files.length) := by
  refine ⟨?_, ?_, ?_, ?_⟩
  · intro stop o total range files m i t st hm hstop hall
    exact copyLoop_break_at stop o total range files m i t st hm hstop hall
  · intro stop src out o range t initFs hex hdir
    obtain ⟨jo, t2, hok, hsum, h1, h2, h3, -⟩ :=
      clean_one_summary stop src out o range t initFs hex hdir
    exact ⟨jo, t2, hok, hsum, h1, h2, h3⟩
  · intro stop sources out iy mf fl dd dI hmono j jo hj hab
    exact run_queue_aux_abort_last stop out
      ⟨DEFAULT_KEEP_EXTS, iy, mf, fl, dd⟩ dI sources.length hmono sources 1 0
      j jo hj hab
  · intro o total range files i t st
    exact copyLoop_nostop_time o total range files i t st

theorem cancellation_cooperative_witness :
    copyLoop (fun tk => decide (2 ≤ tk)) ⟨DEFAULT_KEEP_EXTS, false, false, true, false⟩
      3 (some (0, 100))
      [⟨"a.ymap", ["a.ymap"], 1, true, true⟩, ⟨"b.ymap", ["b.ymap"], 2, true, true⟩,
       ⟨"c.ymap", ["c.ymap"], 3, true, true⟩] 1 1
      { fs := [], seen := [], copied := 0, skipped := 0, errors := 0,
        events := [], progress := [] } =
      ({ (copyLoop (fun _ => false) ⟨DEFAULT_KEEP_EXTS, false, false, true, false⟩
            3 (some (0, 100))
            ([⟨"a.ymap", ["a.ymap"], 1, true, true⟩,
              ⟨"b.ymap", ["b.ymap"], 2, true, true⟩,
              ⟨"c.ymap", ["c.ymap"], 3, true, true⟩].take 1) 1 1
            { fs := [], seen := [], copied := 0, skipped := 0, errors := 0,
              events := [], progress := [] }).1 with
         events := (copyLoop (fun _ => false)
            ⟨DEFAULT_KEEP_EXTS, false, false, true, false⟩ 3 (some (0, 100))
            ([⟨"a.ymap", ["a.ymap"], 1, true, true⟩,
              ⟨"b.ymap", ["b.ymap"], 2, true, true⟩,
              ⟨"c.ymap", ["c.ymap"], 3, true, true⟩].take 1) 1 1
            { fs := [], seen := [], copied := 0, skipped := 0, errors := 0,
              events := [], progress := [] }).1.events ++ [.stopRequested] },
       1 + 1 + 1, true) :=
  cancellation_cooperative.1 (fun tk => decide (2 ≤ tk))
    ⟨DEFAULT_KEEP_EXTS, false, false, true, false⟩ 3 (some (0, 100))
    [⟨"a.ymap", ["a.ymap"], 1, true, true⟩, ⟨"b.ymap", ["b.ymap"], 2, true, true⟩,
     ⟨"c.ymap", ["c.ymap"], 3, true, true⟩] 1 1 1
    { fs := [], seen := [], copied := 0, skipped := 0, errors := 0,
      events := [], progress := [] }
    (by decide) (by decide)
    (fun j hj => by
      have hj0 : j = 0 := Nat.lt_one_iff.1 hj
      rw [hj0]
      decide)

end MloCleaner
namespace MloCleaner

lemma rne_intCast (m : ℤ) : rne (m : ℚ) = m := by
  rw [rne, Int.floor_intCast]
  rw [if_pos]
  rw [sub_self]
  norm_num

lemma rne_floor_le (q : ℚ) : ⌊q⌋ ≤ rne q := by
  rw [rne]
  split
  · exact Int.le_refl _
  · split
    · exact Int.le_of_lt (Int.lt_succ _)
    · split
      · exact Int.le_refl _
      · exact Int.le_of_lt (Int.lt_succ _)

lemma rne_le_floor_succ (q : ℚ) : rne q ≤ ⌊q⌋ + 1 := by
  rw [rne]
  split
  · exact Int.le_of_lt (Int.lt_succ _)
  · split
    · exact Int.le_refl _
    · split
      · exact Int.le_of_lt (Int.lt_succ _)
      · exact Int.le_refl _

lemma rne_mono {q r : ℚ} (h : q ≤ r) : rne q ≤ rne r := by
  rcases lt_or_eq_of_le (Int.floor_mono h) with hf | hf
  · calc rne q ≤ ⌊q⌋ + 1 := rne_le_floor_succ q
      _ ≤ ⌊r⌋ := hf
      _ ≤ rne r := rne_floor_le r
  · rw [rne, rne, hf]
    have hab : q - ((⌊r⌋ : ℤ) : ℚ) ≤ r - ((⌊r⌋ : ℤ) : ℚ) := by linarith
    split_ifs <;> first | omega | linarith

end MloCleaner
namespace MloCleaner

lemma rne_zero : rne 0 = 0 := by
  have h := rne_intCast 0
  simpa using h

lemma roundFP_nonneg (x : ℚ) : 0 ≤ roundFP x := by
  rw [roundFP]
  split
  · exact le_refl 0
  · rename_i h0
    push_neg at h0
    have hq : (0:ℚ) ≤ x * 2 ^ (-expoFP x) :=
      le_of_lt (mul_pos h0 (zpow_pos (by norm_num) _))
    have h1 : (0:ℤ) ≤ rne (x * 2 ^ (-expoFP x)) := by
      rw [← rne_zero]
      exact rne_mono hq
    exact mul_nonneg (by exact_mod_cast h1) (le_of_lt (zpow_pos (by norm_num) _))

lemma roundFP_of_pos (x : ℚ) (h0 : 0 < x) :
    roundFP x = (rne (x * 2 ^ (-expoFP x)) : ℚ) * 2 ^ expoFP x := by
  rw [roundFP, if_neg (not_le.2 h0)]

lemma zpow_mul_zpow_neg (e : ℤ) : (2:ℚ) ^ (-e) * 2 ^ e = 1 := by
  rw [← zpow_add₀ (two_ne_zero)]
  simp

lemma roundFP_le_mul (x : ℚ) (m : ℤ) (h0 : 0 < x)
    (h : x ≤ (m : ℚ) * 2 ^ expoFP x) : roundFP x ≤ (m : ℚ) * 2 ^ expoFP x := by
  rw [roundFP_of_pos x h0]
  have hp : (0:ℚ) < 2 ^ expoFP x := zpow_pos (by norm_num) _
  refine (mul_le_mul_right hp).2 ?_
  have hq : x * 2 ^ (-expoFP x) ≤ (m : ℚ) := by
    have := (mul_le_mul_right (zpow_pos (show (0:ℚ) < 2 by norm_num) (-expoFP x))).2 h
    calc x * 2 ^ (-expoFP x) ≤ (m : ℚ) * 2 ^ expoFP x * 2 ^ (-expoFP x) := this
      _ = (m : ℚ) * (2 ^ (-expoFP x) * 2 ^ expoFP x) := by ring
      _ = (m : ℚ) := by rw [zpow_mul_zpow_neg]; ring
  have h1 : rne (x * 2 ^ (-expoFP x)) ≤ m := by
    have h2 := rne_mono hq
    rw [rne_intCast] at h2
    exact h2
  exact_mod_cast h1

lemma roundFP_ge_mul (x : ℚ) (m : ℤ) (h0 : 0 < x)
    (h : (m : ℚ) * 2 ^ expoFP x ≤ x) : (m : ℚ) * 2 ^ expoFP x ≤ roundFP x := by
  rw [roundFP_of_pos x h0]
  have hp : (0:ℚ) < 2 ^ expoFP x := zpow_pos (by norm_num) _
  refine (mul_le_mul_right hp).2 ?_
  have hq : (m : ℚ) ≤ x * 2 ^ (-expoFP x) := by
    have := (mul_le_mul_right (zpow_pos (show (0:ℚ) < 2 by norm_num) (-expoFP x))).2 h
    calc (m : ℚ) = (m : ℚ) * (2 ^ (-expoFP x) * 2 ^ expoFP x) := by
          rw [zpow_mul_zpow_neg]; ring
      _ = (m : ℚ) * 2 ^ expoFP x * 2 ^ (-expoFP x) := by ring
      _ ≤ x * 2 ^ (-expoFP x) := this
  have h1 : m ≤ rne (x * 2 ^ (-expoFP x)) := by
    have h2 := rne_mono hq
    rw [rne_intCast] at h2
    exact h2
  exact_mod_cast h1

lemma log2_le_52 (x : ℚ) (h0 : 0 < x) (h : x ≤ 2 ^ (52:ℕ)) :
    Int.log 2 x ≤ 52 := by
  have h1 : Int.log 2 x ≤ Int.log 2 ((2:ℚ) ^ (52:ℕ)) := Int.log_mono_right h0 h
  have h2 : Int.log 2 ((2:ℚ) ^ (52:ℕ)) = 52 := by
    have h3 : ((2:ℕ):ℚ) ^ ((52:ℕ):ℤ) = (2:ℚ) ^ (52:ℕ) := by
      rw [zpow_natCast]
      norm_num
    rw [← h3, Int.log_zpow (by norm_num)]
    norm_num
  rw [h2] at h1
  exact h1

lemma expoFP_nonpos (x : ℚ) (h0 : 0 < x) (h : x ≤ 2 ^ (52:ℕ)) :
    expoFP x ≤ 0 := by
  rw [expoFP]
  have := log2_le_52 x h0 h
  rcases max_cases (Int.log 2 x - 52) (-1074 : ℤ) with ⟨h1, -⟩ | ⟨h1, -⟩ <;>
    rw [h1] <;> omega

lemma natCast_eq_mul_zpow (k : ℕ) (e : ℤ) (he : e ≤ 0) :
    ((k * 2 ^ (-e).toNat : ℤ) : ℚ) * 2 ^ e = (k : ℚ) := by
  push_cast
  rw [← zpow_natCast (2:ℚ) (-e).toNat, Int.toNat_of_nonneg (by omega)]
  rw [mul_assoc, zpow_mul_zpow_neg, mul_one]

lemma roundFP_le_nat (k : ℕ) (x : ℚ) (hk : (k:ℚ) ≤ 2 ^ (52:ℕ))
    (h : x ≤ (k : ℚ)) : roundFP x ≤ (k : ℚ) := by
  by_cases h0 : x ≤ 0
  · rw [roundFP, if_pos h0]
    exact Nat.cast_nonneg k
  · push_neg at h0
    have he := expoFP_nonpos x h0 (le_trans h hk)
    have hm := natCast_eq_mul_zpow k (expoFP x) he
    rw [← hm]
    exact roundFP_le_mul x _ h0 (by rw [hm]; exact h)

lemma roundFP_ge_nat (k : ℕ) (x : ℚ) (hx : x ≤ 2 ^ (52:ℕ))
    (h : (k : ℚ) ≤ x) : (k : ℚ) ≤ roundFP x := by
  by_cases h0 : x ≤ 0
  · rw [roundFP, if_pos h0]
    have : (k:ℚ) ≤ 0 := le_trans h h0
    have hk0 : k = 0 := by exact_mod_cast le_antisymm this (Nat.cast_nonneg k)
    rw [hk0]
    norm_num
  · push_neg at h0
    have he := expoFP_nonpos x h0 hx
    have hm := natCast_eq_mul_zpow k (expoFP x) he
    rw [← hm]
    exact roundFP_ge_mul x _ h0 (by rw [hm]; exact h)

lemma roundFP_le_one (x : ℚ) (h : x ≤ 1) : roundFP x ≤ 1 := by
  have := roundFP_le_nat 1 x (by norm_num) (by exact_mod_cast h)
  exact_mod_cast this

end MloCleaner
namespace MloCleaner

lemma expoFP_mono (x y : ℚ) (h0 : 0 < x) (h : x ≤ y) : expoFP x ≤ expoFP y :=
  max_le_max (sub_le_sub_right (Int.log_mono_right h0 h) 52) (le_refl _)

lemma roundFP_mono (x y : ℚ) (h : x ≤ y) : roundFP x ≤ roundFP y := by
  by_cases hx : x ≤ 0
  · rw [roundFP, if_pos hx]
    exact roundFP_nonneg y
  · push_neg at hx
    have hy : (0:ℚ) < y := lt_of_lt_of_le hx h
    rcases eq_or_lt_of_le (expoFP_mono x y hx h) with heq | hlt
    · rw [roundFP_of_pos x hx, roundFP_of_pos y hy, heq]
      have hp : (0:ℚ) < 2 ^ expoFP y := zpow_pos (by norm_num) _
      refine (mul_le_mul_right hp).2 ?_
      have hq : x * 2 ^ (-expoFP y) ≤ y * 2 ^ (-expoFP y) :=
        (mul_le_mul_right (zpow_pos (by norm_num) _)).2 h
      exact_mod_cast rne_mono hq
    · have hclamp : (-1074 : ℤ) ≤ expoFP x := le_max_right _ _
      have hEy : expoFP y = Int.log 2 y - 52 := by
        rcases max_cases (Int.log 2 y - 52) (-1074 : ℤ) with ⟨h1, -⟩ | ⟨h1, h2⟩
        · rw [expoFP, h1]
        · exfalso
          have hy1074 : expoFP y = -1074 := by rw [expoFP]; exact h1
          omega
      have hEx : Int.log 2 x - 52 ≤ expoFP x := le_max_left _ _
      have hlog : Int.log 2 x < Int.log 2 y := by omega
      have hByQ : ((2:ℕ):ℚ) ^ (Int.log 2 y) ≤ y :=
        Int.zpow_log_le_self (by norm_num) hy
      have hBy : (2:ℚ) ^ (Int.log 2 y) ≤ y := by
        have hc : ((2:ℕ):ℚ) = (2:ℚ) := by norm_num
        rw [hc] at hByQ
        exact hByQ
      have hxB : x < (2:ℚ) ^ (Int.log 2 y) := by
        have h1 : x < ((2:ℕ):ℚ) ^ (Int.log 2 x + 1) :=
          Int.lt_zpow_succ_log_self (by norm_num) x
        have hc : ((2:ℕ):ℚ) = (2:ℚ) := by norm_num
        rw [hc] at h1
        exact lt_of_lt_of_le h1 (zpow_le_zpow_right₀ (by norm_num) (by omega))
      have h1 : roundFP x ≤ (2:ℚ) ^ (Int.log 2 y) := by
        have hnn : (0:ℤ) ≤ Int.log 2 y - expoFP x := by omega
        have hm : (((2 ^ (Int.log 2 y - expoFP x).toNat : ℤ)) : ℚ) *
            2 ^ expoFP x = (2:ℚ) ^ (Int.log 2 y) := by
          push_cast
          rw [← zpow_natCast (2:ℚ) (Int.log 2 y - expoFP x).toNat,
            Int.toNat_of_nonneg hnn, ← zpow_add₀ (two_ne_zero)]
          congr 1
          omega
        rw [← hm]
        exact roundFP_le_mul x _ hx (by rw [hm]; exact le_of_lt hxB)
      have h2 : (2:ℚ) ^ (Int.log 2 y) ≤ roundFP y := by
        have hnn : (0:ℤ) ≤ Int.log 2 y - expoFP y := by omega
        have hm : (((2 ^ (Int.log 2 y - expoFP y).toNat : ℤ)) : ℚ) *
            2 ^ expoFP y = (2:ℚ) ^ (Int.log 2 y) := by
          push_cast
          rw [← zpow_natCast (2:ℚ) (Int.log 2 y - expoFP y).toNat,
            Int.toNat_of_nonneg hnn, ← zpow_add₀ (two_ne_zero)]
          congr 1
          omega
        rw [← hm]
        exact roundFP_ge_mul y _ hy (by rw [hm]; exact hBy)
      exact le_trans h1 h2

end MloCleaner
namespace MloCleaner

lemma pyInt_mono {x y : ℚ} (h : x ≤ y) : pyInt x ≤ pyInt y :=
  Int.toNat_le_toNat (Int.floor_mono h)

lemma pyInt_le_nat (k : ℕ) (x : ℚ) (h : x ≤ (k : ℚ)) : pyInt x ≤ k := by
  have h1 : ⌊x⌋ ≤ (k : ℤ) := by
    have := Int.floor_mono h
    rw [Int.floor_natCast] at this
    exact this
  calc pyInt x ≤ (k : ℤ).toNat := Int.toNat_le_toNat h1
    _ = k := Int.toNat_natCast k

lemma pyInt_ge_nat (k : ℕ) (x : ℚ) (h : (k : ℚ) ≤ x) : k ≤ pyInt x := by
  have h1 : (k : ℤ) ≤ ⌊x⌋ := by
    have := Int.floor_mono h
    rw [Int.floor_natCast] at this
    exact this
  calc k = (k : ℤ).toNat := (Int.toNat_natCast k).symm
    _ ≤ pyInt x := Int.toNat_le_toNat h1

lemma pyFloatDiv_nonneg (a b : ℕ) : 0 ≤ pyFloatDiv a b :=
  roundFP_nonneg _

lemma pyFloatDiv_le_one (a b : ℕ) (h : a ≤ b) : pyFloatDiv a b ≤ 1 := by
  refine roundFP_le_one _ ?_
  rcases Nat.eq_zero_or_pos b with hb | hb
  · rw [hb]
    norm_num
  · rw [div_le_one (by exact_mod_cast hb)]
    exact_mod_cast h

lemma pyFloatDiv_mono (a a' b : ℕ) (h : a ≤ a') :
    pyFloatDiv a b ≤ pyFloatDiv a' b := by
  refine roundFP_mono _ _ ?_
  rcases Nat.eq_zero_or_pos b with hb | hb
  · rw [hb]
    norm_num
  · exact div_le_div_of_nonneg_right (by exact_mod_cast h)
      (Nat.cast_nonneg b)

lemma hundred_le_pow52 : ((100 : ℕ) : ℚ) ≤ 2 ^ (52:ℕ) := by norm_num

/-- Bounds for the emitted progress value: with `s ≤ e ≤ 100` and
`i ≤ total`, the float computation `int(s + (e - s) * (i / total))` stays
within `[s, e]`. -/
lemma progress_value_bounds (s e i total : ℕ) (hse : s ≤ e) (he : e ≤ 100)
    (hi : i ≤ total) :
    s ≤ progress_value s e i total ∧ progress_value s e i total ≤ e := by
  have hfrac0 : (0:ℚ) ≤ pyFloatDiv i total := pyFloatDiv_nonneg i total
  have hfrac1 : pyFloatDiv i total ≤ 1 := pyFloatDiv_le_one i total hi
  have hX0 : (0:ℚ) ≤ pyFloatMul (e - s) (pyFloatDiv i total) :=
    roundFP_nonneg _
  have hXle : pyFloatMul (e - s) (pyFloatDiv i total) ≤ ((e - s : ℕ) : ℚ) := by
    refine roundFP_le_nat (e - s) _
      (le_trans (by exact_mod_cast Nat.sub_le e s |>.trans he) hundred_le_pow52) ?_
    calc ((e - s : ℕ) : ℚ) * pyFloatDiv i total ≤ ((e - s : ℕ) : ℚ) * 1 :=
        mul_le_mul_of_nonneg_left hfrac1 (Nat.cast_nonneg _)
      _ = ((e - s : ℕ) : ℚ) := mul_one _
  have hsum_lo : ((s : ℕ) : ℚ) ≤ (s : ℚ) + pyFloatMul (e - s) (pyFloatDiv i total) := by
    exact le_add_of_nonneg_right hX0
  have hcast : ((s : ℕ) : ℚ) + ((e - s : ℕ) : ℚ) = ((e : ℕ) : ℚ) := by
    have : s + (e - s) = e := by omega
    exact_mod_cast congrArg (fun n => ((n : ℕ) : ℚ)) this
  have hsum_hi : (s : ℚ) + pyFloatMul (e - s) (pyFloatDiv i total) ≤ ((e : ℕ) : ℚ) := by
    rw [← hcast]
    exact add_le_add_left hXle _
  have he52 : ((e : ℕ) : ℚ) ≤ 2 ^ (52:ℕ) :=
    le_trans (by exact_mod_cast he) hundred_le_pow52
  have hadd_lo : ((s : ℕ) : ℚ) ≤ pyFloatAdd s (pyFloatMul (e - s) (pyFloatDiv i total)) :=
    roundFP_ge_nat s _ (le_trans hsum_hi he52) hsum_lo
  have hadd_hi : pyFloatAdd s (pyFloatMul (e - s) (pyFloatDiv i total)) ≤ ((e : ℕ) : ℚ) :=
    roundFP_le_nat e _ he52 hsum_hi
  exact ⟨pyInt_ge_nat s _ hadd_lo, pyInt_le_nat e _ hadd_hi⟩

/-- The emitted progress value is monotone in the local file index. -/
lemma progress_value_mono (s e total : ℕ) {i j : ℕ} (hij : i ≤ j) :
    progress_value s e i total ≤ progress_value s e j total := by
  have hfrac : pyFloatDiv i total ≤ pyFloatDiv j total :=
    pyFloatDiv_mono i j total hij
  have hXm : pyFloatMul (e - s) (pyFloatDiv i total) ≤
      pyFloatMul (e - s) (pyFloatDiv j total) :=
    roundFP_mono _ _ (mul_le_mul_of_nonneg_left hfrac (Nat.cast_nonneg _))
  exact pyInt_mono (roundFP_mono _ _ (add_le_add_left hXm _))

/-- The queue chunk boundary `int((k / n) * 100)` never exceeds 100 for
`k ≤ n`. -/
lemma qchunk_le_100 (k n : ℕ) (h : k ≤ n) : qchunk k n ≤ 100 := by
  refine pyInt_le_nat 100 _ ?_
  refine roundFP_le_nat 100 _ hundred_le_pow52 ?_
  calc ((100 : ℕ) : ℚ) * pyFloatDiv k n ≤ ((100 : ℕ) : ℚ) * 1 :=
      mul_le_mul_of_nonneg_left (pyFloatDiv_le_one k n h) (Nat.cast_nonneg _)
    _ = ((100 : ℕ) : ℚ) := mul_one _

/-- The queue chunk boundary is monotone in the job index. -/
lemma qchunk_mono (n : ℕ) {a b : ℕ} (h : a ≤ b) : qchunk a n ≤ qchunk b n :=
  pyInt_mono (roundFP_mono _ _
    (mul_le_mul_of_nonneg_left (pyFloatDiv_mono a b n h) (Nat.cast_nonneg _)))

end MloCleaner
namespace MloCleaner

lemma Int_log_eq_of (x : ℚ) (a : ℤ) (h0 : 0 < x) (h1 : (2:ℚ) ^ a ≤ x)
    (h2 : x < (2:ℚ) ^ (a + 1)) : Int.log 2 x = a := by
  have hlo : a ≤ Int.log 2 x := by
    have hz : Int.log 2 (((2:ℕ):ℚ) ^ a) = a := Int.log_zpow (by norm_num) a
    have hcast : ((2:ℕ):ℚ) = (2:ℚ) := by norm_num
    rw [hcast] at hz
    have hmono : Int.log 2 ((2:ℚ) ^ a) ≤ Int.log 2 x :=
      Int.log_mono_right (zpow_pos (by norm_num) a) h1
    omega
  have hhi : Int.log 2 x ≤ a := by
    by_contra hc
    push_neg at hc
    have h3 : (2:ℚ) ^ (a + 1) ≤ (2:ℚ) ^ Int.log 2 x :=
      zpow_le_zpow_right₀ (by norm_num) hc
    have h4 : ((2:ℕ):ℚ) ^ Int.log 2 x ≤ x := Int.zpow_log_le_self (by norm_num) h0
    push_cast at h4
    linarith
  omega

lemma rne_eq_of (q : ℚ) (m : ℤ) (h1 : (m:ℚ) - 1/2 < q) (h2 : q < (m:ℚ) + 1/2) :
    rne q = m := by
  have hub : ⌊q⌋ ≤ m := by
    have hq : (⌊q⌋ : ℚ) < ((m + 1 : ℤ) : ℚ) := by
      have := Int.floor_le q
      push_cast
      linarith
    exact_mod_cast Int.lt_add_one_iff.1 (by exact_mod_cast hq)
  have hlb : m - 1 ≤ ⌊q⌋ := by
    have hq : ((m - 2 : ℤ):ℚ) < (⌊q⌋:ℚ) := by
      have := Int.lt_floor_add_one q
      push_cast
      linarith
    have hmq : (m - 2 : ℤ) < ⌊q⌋ := by exact_mod_cast hq
    omega
  rcases (by omega : ⌊q⌋ = m ∨ ⌊q⌋ = m - 1) with hf | hf
  · have hq : q - (⌊q⌋:ℚ) < 1/2 := by
      rw [hf]
      linarith

    rw [rne, if_pos hq, hf]
  · have hq2 : (1:ℚ)/2 < q - (⌊q⌋:ℚ) := by
      rw [hf]
      push_cast
      linarith
    rw [rne, if_neg (by linarith), if_pos hq2, hf]
    omega

lemma roundFP_eval (x : ℚ) (a m : ℤ) (h0 : 0 < x) (hle : (2:ℚ) ^ a ≤ x)
    (hlt : x < (2:ℚ) ^ (a + 1)) (ha : (-1022:ℤ) ≤ a)
    (hm1 : (m:ℚ) - 1/2 < x * 2 ^ ((52:ℤ) - a)) (hm2 : x * 2 ^ ((52:ℤ) - a) < (m:ℚ) + 1/2) :
    roundFP x = (m:ℚ) * 2 ^ (a - 52) := by
  have hlog : Int.log 2 x = a := Int_log_eq_of x a h0 hle hlt
  have hexp : expoFP x = a - 52 := by
    rw [expoFP, hlog, max_eq_left (by omega)]
  rw [roundFP_of_pos x h0, hexp]
  rw [show -(a - 52) = (52:ℤ) - a by ring]
  rw [rne_eq_of _ m hm1 hm2]

lemma pyInt_eval (x : ℚ) (k : ℕ) (h1 : (k:ℚ) ≤ x) (h2 : x < (k:ℚ) + 1) :
    pyInt x = k := by
  have hfl : ⌊x⌋ = (k:ℤ) := by
    rw [Int.floor_eq_iff]
    constructor
    · exact_mod_cast h1
    · push_cast
      exact h2
  rw [pyInt, hfl, Int.toNat_natCast]

lemma pyFloatDiv_29_50 : pyFloatDiv 29 50 = 5224175567749775 / 9007199254740992 := by
  rw [pyFloatDiv, show (((29:ℕ)):ℚ) / ((50:ℕ):ℚ) = (29:ℚ)/50 by norm_num]
  rw [roundFP_eval ((29:ℚ)/50) (-1) 5224175567749775 (by norm_num) (by norm_num)
    (by norm_num) (by norm_num) (by norm_num) (by norm_num)]
  norm_num

lemma qchunk_29_50 : qchunk 29 50 = 57 := by
  have m1 : pyFloatMul 100 (pyFloatDiv 29 50) =
      8162774324609023 / 140737488355328 := by
    rw [pyFloatMul, pyFloatDiv_29_50,
      show ((100:ℕ):ℚ) * (5224175567749775 / 9007199254740992) =
        (100:ℚ) * (5224175567749775 / 9007199254740992) by norm_num]
    rw [roundFP_eval _ 5 8162774324609023 (by norm_num) (by norm_num)
      (by norm_num) (by norm_num) (by norm_num) (by norm_num)]
    norm_num
  rw [qchunk, m1]
  exact pyInt_eval _ 57 (by norm_num) (by norm_num)

lemma pyFloatDiv_30_50 : pyFloatDiv 30 50 = 5404319552844595 / 9007199254740992 := by
  rw [pyFloatDiv, show (((30:ℕ)):ℚ) / ((50:ℕ):ℚ) = (3:ℚ)/5 by norm_num]
  rw [roundFP_eval ((3:ℚ)/5) (-1) 5404319552844595 (by norm_num) (by norm_num)
    (by norm_num) (by norm_num) (by norm_num) (by norm_num)]
  norm_num

lemma qchunk_30_50 : qchunk 30 50 = 60 := by
  have m2 : pyFloatMul 100 (pyFloatDiv 30 50) = 60 := by
    rw [pyFloatMul, pyFloatDiv_30_50,
      show ((100:ℕ):ℚ) * (5404319552844595 / 9007199254740992) =
        (100:ℚ) * (5404319552844595 / 9007199254740992) by norm_num]
    rw [roundFP_eval _ 5 8444249301319680 (by norm_num) (by norm_num)
      (by norm_num) (by norm_num) (by norm_num) (by norm_num)]
    norm_num
  rw [qchunk, m2]
  exact pyInt_eval _ 60 (by norm_num) (by norm_num)

lemma pyFloatDiv_1_4 : pyFloatDiv 1 4 = 1 / 4 := by
  rw [pyFloatDiv, show (((1:ℕ)):ℚ) / ((4:ℕ):ℚ) = (1:ℚ)/4 by norm_num]
  rw [roundFP_eval ((1:ℚ)/4) (-2) 4503599627370496 (by norm_num) (by norm_num)
    (by norm_num) (by norm_num) (by norm_num) (by norm_num)]
  norm_num

lemma pv_57_60_1_4 : progress_value 57 60 1 4 = 57 := by
  have hm : pyFloatMul (60 - 57) (pyFloatDiv 1 4) = 3 / 4 := by
    rw [pyFloatMul, pyFloatDiv_1_4,
      show (((60 - 57 : ℕ)):ℚ) * ((1:ℚ) / 4) = (3:ℚ)/4 by norm_num]
    rw [roundFP_eval ((3:ℚ)/4) (-1) 6755399441055744 (by norm_num) (by norm_num)
      (by norm_num) (by norm_num) (by norm_num) (by norm_num)]
    norm_num
  have ha : pyFloatAdd 57 (pyFloatMul (60 - 57) (pyFloatDiv 1 4)) = 231 / 4 := by
    rw [pyFloatAdd, hm, show ((57:ℕ):ℚ) + (3:ℚ)/4 = (231:ℚ)/4 by norm_num]
    rw [roundFP_eval ((231:ℚ)/4) 5 8127589952520192 (by norm_num) (by norm_num)
      (by norm_num) (by norm_num) (by norm_num) (by norm_num)]
    norm_num
  rw [progress_value, ha]
  exact pyInt_eval _ 57 (by norm_num) (by norm_num)

end MloCleaner
namespace MloCleaner

lemma run_queue_aux_replicate_empty (out : List String) (o : JobOptions) (n : Nat) :
    ∀ (m idx t : Nat) (rest : List SourceRoot),
      ∃ js : List JobOutcome, js.length = m ∧
        run_queue_aux (fun _ => false) out o (fun _ => []) n
            (List.replicate m (⟨"s", true, true, []⟩ : SourceRoot) ++ rest) idx t =
          { run_queue_aux (fun _ => false) out o (fun _ => []) n rest
              (idx + m) (t + m) with
            jobs := js ++ (run_queue_aux (fun _ => false) out o (fun _ => []) n rest
              (idx + m) (t + m)).jobs }
  | 0, idx, t, rest => ⟨[], rfl, by simp⟩
  | m + 1, idx, t, rest => by
    rw [List.replicate_succ, List.cons_append]
    obtain ⟨joE, hok⟩ :
        ∃ jo, clean_one (fun _ => false) (⟨"s", true, true, []⟩ : SourceRoot) out o
          (some (qchunk (idx - 1) n, qchunk idx n)) (t + 1) [] = .ok (jo, t + 1) :=
      ⟨_, rfl⟩
    rw [run_queue_aux_cons_ok (fun _ => false) out o (fun _ => []) n
      (⟨"s", true, true, []⟩ : SourceRoot)
      (List.replicate m (⟨"s", true, true, []⟩ : SourceRoot) ++ rest) idx t joE (t + 1)
      rfl hok]
    obtain ⟨js, hlen, heq⟩ :=
      run_queue_aux_replicate_empty out o n m (idx + 1) (t + 1) rest
    rw [heq]
    refine ⟨joE :: js, by simp [hlen], ?_⟩
    simp only [Nat.add_succ, Nat.succ_add, Nat.add_zero]
    simp [List.cons_append]

end MloCleaner
namespace MloCleaner

/-- C7 (counterexample to the exact-floor sub-range): the program computes the
job sub-range endpoints with IEEE-754 double arithmetic,
`int(((idx-1)/n)*100)`, which can fall below the exact floor
`100*(idx-1)/n`.  In a queue of 50 source roots where root 30 (1-based)
holds four files, the first value delivered during job 30 is 57, strictly
below `floor(100*29/50) = 58`, so the claimed per-job lower bound fails. -/
theorem progress_floor_counterexample :
    ∃ jo : JobOutcome,
      (run_queue (fun _ => false)
          (List.replicate 29 (⟨"s", true, true, []⟩ : SourceRoot) ++
            ((⟨"j", true, true,
              [⟨"a.txt", ["a.txt"], 1, true, true⟩,
               ⟨"b.txt", ["b.txt"], 2, true, true⟩,
               ⟨"c.txt", ["c.txt"], 3, true, true⟩,
               ⟨"d.txt", ["d.txt"], 4, true, true⟩]⟩ : SourceRoot) ::
              List.replicate 20 (⟨"s", true, true, []⟩ : SourceRoot)))
          ["out"] false false true false (fun _ => [])).jobs[29]? = some jo ∧
      jo.state.progress.head? = some (57, 100) ∧
      57 < 100 * (30 - 1) / 50 := by
  simp only [run_queue]
  rw [(by simp : (List.replicate 29 (⟨"s", true, true, []⟩ : SourceRoot) ++
    ((⟨"j", true, true,
      [⟨"a.txt", ["a.txt"], 1, true, true⟩,
       ⟨"b.txt", ["b.txt"], 2, true, true⟩,
       ⟨"c.txt", ["c.txt"], 3, true, true⟩,
       ⟨"d.txt", ["d.txt"], 4, true, true⟩]⟩ : SourceRoot) ::
      List.replicate 20 (⟨"s", true, true, []⟩ : SourceRoot))).length = 50)]
  obtain ⟨js, hjs, heq⟩ :=
    run_queue_aux_replicate_empty ["out"]
      ⟨DEFAULT_KEEP_EXTS, false, false, true, false⟩ 50 29 1 0
      ((⟨"j", true, true,
        [⟨"a.txt", ["a.txt"], 1, true, true⟩,
         ⟨"b.txt", ["b.txt"], 2, true, true⟩,
         ⟨"c.txt", ["c.txt"], 3, true, true⟩,
         ⟨"d.txt", ["d.txt"], 4, true, true⟩]⟩ : SourceRoot) ::
        List.replicate 20 (⟨"s", true, true, []⟩ : SourceRoot))
  rw [heq]
  obtain ⟨jo30, h30, hhead⟩ :
      ∃ jo, clean_one (fun _ => false)
          (⟨"j", true, true,
            [⟨"a.txt", ["a.txt"], 1, true, true⟩,
             ⟨"b.txt", ["b.txt"], 2, true, true⟩,
             ⟨"c.txt", ["c.txt"], 3, true, true⟩,
             ⟨"d.txt", ["d.txt"], 4, true, true⟩]⟩ : SourceRoot) ["out"]
          ⟨DEFAULT_KEEP_EXTS, false, false, true, false⟩
          (some (qchunk (1 + 29 - 1) 50, qchunk (1 + 29) 50)) (0 + 29 + 1) [] =
          .ok (jo, 34) ∧
        jo.state.progress.head? =
          some (progress_value (qchunk (1 + 29 - 1) 50) (qchunk (1 + 29) 50) 1 4,
            100) :=
    ⟨_, rfl, rfl⟩
  rw [run_queue_aux_cons_ok (fun _ => false) ["out"]
    ⟨DEFAULT_KEEP_EXTS, false, false, true, false⟩ (fun _ => []) 50
    (⟨"j", true, true,
      [⟨"a.txt", ["a.txt"], 1, true, true⟩,
       ⟨"b.txt", ["b.txt"], 2, true, true⟩,
       ⟨"c.txt", ["c.txt"], 3, true, true⟩,
       ⟨"d.txt", ["d.txt"], 4, true, true⟩]⟩ : SourceRoot)
    (List.replicate 20 (⟨"s", true, true, []⟩ : SourceRoot)) (1 + 29) (0 + 29)
    jo30 34 rfl h30]
  rw [show qchunk (1 + 29 - 1) 50 = 57 from qchunk_29_50,
      show qchunk (1 + 29) 50 = 60 from qchunk_30_50, pv_57_60_1_4] at hhead
  refine ⟨jo30, ?_, hhead, by decide⟩
  show (js ++ jo30 :: _)[29]? = some jo30
  rw [List.getElem?_append_right (by omega), hjs]
  simp
end MloCleaner
namespace MloCleaner

lemma clean_one_progress (stop : Nat → Bool) (src : SourceRoot) (out : List String)
    (o : JobOptions) (s e t : Nat) (initFs : List (List String × Nat))
    (jo : JobOutcome) (t2 : Nat) (hse : s ≤ e) (he : e ≤ 100)
    (hok : clean_one stop src out o (some (s, e)) t initFs = .ok (jo, t2)) :
    (∀ pr ∈ jo.state.progress, pr.2 = 100 ∧ s ≤ pr.1 ∧ pr.1 ≤ e) ∧
    List.Sorted (· ≤ ·) (jo.state.progress.map Prod.fst) := by
  obtain ⟨hstate, -, -, -⟩ :=
    clean_one_ok stop src out o (some (s, e)) t initFs jo t2 hok
  have hpr : jo.state.progress =
      (copyLoop stop o (max 1 src.files.length) (some (s, e)) src.files 1 t
        { fs := initFs, seen := [], copied := 0, skipped := 0, errors := 0,
          events := [], progress := [] }).1.progress := by
    rw [hstate]
  obtain ⟨k, hk, htr, -, -⟩ :=
    copyLoop_trace stop o (max 1 src.files.length) (some (s, e)) src.files 1 t
      { fs := initFs, seen := [], copied := 0, skipped := 0, errors := 0,
        events := [], progress := [] }
  rw [htr] at hpr
  simp only [List.nil_append] at hpr
  have hjt : ∀ j ∈ List.range' 1 k, j ≤ max 1 src.files.length := by
    intro j hj
    obtain ⟨-, hj2⟩ := List.mem_range'_1.1 hj
    have : j ≤ k := by omega
    exact Nat.le_trans (Nat.le_trans this hk) (Nat.le_max_right 1 _)
  constructor
  · intro pr hpr'
    rw [hpr] at hpr'
    obtain ⟨j, hj, rfl⟩ := List.mem_map.1 hpr'
    obtain ⟨hlo, hhi⟩ :=
      progress_value_bounds s e j (max 1 src.files.length) hse he (hjt j hj)
    exact ⟨progress_pair_snd s e _ j, hlo, hhi⟩
  · rw [hpr, List.map_map]
    refine List.Pairwise.map _ ?_ (List.pairwise_lt_range' 1 k)
    intro a b hab
    exact progress_value_mono s e (max 1 src.files.length) (Nat.le_of_lt hab)

lemma run_queue_aux_spec (stop : Nat → Bool) (out : List String) (o : JobOptions)
    (dI : Nat → List (List String × Nat)) (n : Nat) :
    ∀ (srcs : List SourceRoot) (idx t : Nat), 1 ≤ idx →
      idx + srcs.length ≤ n + 1 →
      (run_queue_aux stop out o dI n srcs idx t).jobs.length ≤ srcs.length ∧
      (∀ (j : Nat) (jo : JobOutcome),
        (run_queue_aux stop out o dI n srcs idx t).jobs[j]? = some jo →
        ∀ pr ∈ jo.state.progress,
          pr.2 = 100 ∧ qchunk (idx - 1 + j) n ≤ pr.1 ∧
            pr.1 ≤ qchunk (idx + j) n) ∧
      List.Sorted (· ≤ ·)
        ((queueTrace (run_queue_aux stop out o dI n srcs idx t)).map Prod.fst)
  | [], idx, t, hidx, hn => by
    rw [run_queue_aux_nil]
    refine ⟨Nat.le_refl 0, ?_, by simp [queueTrace]⟩
    intro j jo hj
    simp at hj
  | src :: rest, idx, t, hidx, hn => by
    cases hstop : stop t with
    | true =>
      rw [run_queue_aux_cons_stop stop out o dI n src rest idx t hstop]
      refine ⟨Nat.zero_le _, ?_, by simp [queueTrace]⟩
      intro j jo hj
      simp at hj
    | false =>
      cases hc : clean_one stop src out o
          (some (qchunk (idx - 1) n, qchunk idx n)) (t + 1) (dI idx) with
      | error msg =>
        rw [run_queue_aux_cons_err stop out o dI n src rest idx t msg hstop hc]
        refine ⟨Nat.zero_le _, ?_, by simp [queueTrace]⟩
        intro j jo hj
        simp at hj
      | ok p =>
        obtain ⟨jo, t2⟩ := p
        rw [run_queue_aux_cons_ok stop out o dI n src rest idx t jo t2 hstop hc]
        obtain ⟨ihlen, ihbnd, ihsort⟩ :=
          run_queue_aux_spec stop out o dI n rest (idx + 1) t2
            (Nat.le_trans hidx (Nat.le_succ idx)) (by simp at hn ⊢; omega)
        have hidxn : idx ≤ n := by simp at hn; omega
        obtain ⟨hvals, hsort⟩ :=
          clean_one_progress stop src out o (qchunk (idx - 1) n) (qchunk idx n)
            (t + 1) (dI idx) jo t2 (qchunk_mono n (Nat.sub_le idx 1))
            (qchunk_le_100 idx n hidxn) hc
        have hupper : ∀ pr ∈ jo.state.progress, pr.1 ≤ qchunk idx n :=
          fun pr hpr => (hvals pr hpr).2.2
        refine ⟨by simpa using Nat.succ_le_succ ihlen, ?_, ?_⟩
        · intro j jo' hj
          cases j with
          | zero =>
            rw [List.getElem?_cons_zero] at hj
            injection hj with hj
            subst hj
            intro pr hpr
            obtain ⟨h100, hlo, hhi⟩ := hvals pr hpr
            exact ⟨h100, by simpa using hlo, by simpa using hhi⟩
          | succ j =>
            rw [List.getElem?_cons_succ] at hj
            intro pr hpr
            obtain ⟨h100, hlo, hhi⟩ := ihbnd j jo' hj pr hpr
            refine ⟨h100, ?_, ?_⟩
            · have he : idx - 1 + (j + 1) = idx + 1 - 1 + j := by omega
              rw [he]
              exact hlo
            · have he : idx + (j + 1) = idx + 1 + j := by omega
              rw [he]
              exact hhi
        · have hq :
              queueTrace { run_queue_aux stop out o dI n rest (idx + 1) t2 with
                jobs := jo :: (run_queue_aux stop out o dI n rest (idx + 1) t2).jobs } =
                jo.state.progress ++
                  queueTrace (run_queue_aux stop out o dI n rest (idx + 1) t2) := by
            simp [queueTrace]
          rw [hq, List.map_append]
          rw [List.Sorted] at hsort ihsort ⊢
          refine List.pairwise_append.2 ⟨hsort, ihsort, ?_⟩
          intro a ha b hb
          obtain ⟨pa, hpa, rfl⟩ := List.mem_map.1 ha
          obtain ⟨pb, hpb, rfl⟩ := List.mem_map.1 hb
          obtain ⟨j', jo', hj', hmem⟩ :=
            queueTrace_mem (run_queue_aux stop out o dI n rest (idx + 1) t2) pb hpb
          have hblo := (ihbnd j' jo' hj' pb hmem).2.1
          have hstep : qchunk idx n ≤ qchunk (idx + 1 - 1 + j') n :=
            qchunk_mono n (by omega)
          exact Nat.le_trans (hupper pa hpa) (Nat.le_trans hstep hblo)

end MloCleaner
namespace MloCleaner

/-- C7 (amended): for a queue of n jobs, the sequence of progress values
delivered to the sink is monotonically non-decreasing and bounded in [0,100],
with total always reported as 100; every value reported during job idx
(1-based) lies within that job's sub-range as the program computes it with
float arithmetic, [int(((idx-1)/n)*100), int((idx/n)*100)] — which can differ
from the exact floors by one. -/
theorem progress_contract (stop : Nat → Bool) (sources : List SourceRoot)
    (out : List String) (iy mf fl dd : Bool)
    (dI : Nat → List (List String × Nat)) :
    (∀ pr ∈ queueTrace (run_queue stop sources out iy mf fl dd dI),
       pr.2 = 100 ∧ pr.1 ≤ 100) ∧
    List.Sorted (· ≤ ·)
      ((queueTrace (run_queue stop sources out iy mf fl dd dI)).map Prod.fst) ∧
    (∀ (j : Nat) (jo : JobOutcome),
       (run_queue stop sources out iy mf fl dd dI).jobs[j]? = some jo →
       ∀ pr ∈ jo.state.progress,
         qchunk j sources.length ≤ pr.1 ∧
           pr.1 ≤ qchunk (j + 1) sources.length) := by
  obtain ⟨hlen, hbnd, hsort⟩ :=
    run_queue_aux_spec stop out ⟨DEFAULT_KEEP_EXTS, iy, mf, fl, dd⟩ dI
      sources.length sources 1 0 (Nat.le_refl 1) (by omega)
  refine ⟨?_, hsort, ?_⟩
  · intro pr hpr
    obtain ⟨j, jo, hj, hmem⟩ :=
      queueTrace_mem (run_queue stop sources out iy mf fl dd dI) pr hpr
    obtain ⟨h100, -, hhi⟩ := hbnd j jo hj pr hmem
    refine ⟨h100, Nat.le_trans hhi ?_⟩
    have hjlt : j < (run_queue stop sources out iy mf fl dd dI).jobs.length :=
      (List.getElem?_eq_some.1 hj).1
    have hjn : 1 + j ≤ sources.length := by
      have := Nat.lt_of_lt_of_le hjlt hlen
      omega
    exact qchunk_le_100 (1 + j) sources.length hjn
  · intro j jo hj pr hpr
    obtain ⟨-, hlo, hhi⟩ := hbnd j jo hj pr hpr
    constructor
    · have he : 1 - 1 + j = j := by omega
      rw [he] at hlo
      exact hlo
    · have he : 1 + j = j + 1 := by omega
      rw [he] at hhi
      exact hhi

theorem progress_contract_witness :
    (∀ pr ∈ queueTrace (run_queue (fun _ => false)
        [⟨"A", true, true, [⟨"a.ymap", ["a.ymap"], 1, true, true⟩,
            ⟨"b.ymap", ["b.ymap"], 2, true, true⟩,
            ⟨"c.txt", ["c.txt"], 3, true, true⟩]⟩,
         ⟨"B", true, true, [⟨"d.ymap", ["d.ymap"], 4, true, true⟩]⟩,
         ⟨"C", true, true, [⟨"e.ymap", ["e.ymap"], 5, true, true⟩,
            ⟨"f.ymap", ["f.ymap"], 6, true, true⟩]⟩] ["out"]
        false false true false (fun _ => [])),
       pr.2 = 100 ∧ pr.1 ≤ 100) ∧
    List.Sorted (· ≤ ·)
      ((queueTrace (run_queue (fun _ => false)
        [⟨"A", true, true, [⟨"a.ymap", ["a.ymap"], 1, true, true⟩,
            ⟨"b.ymap", ["b.ymap"], 2, true, true⟩,
            ⟨"c.txt", ["c.txt"], 3, true, true⟩]⟩,
         ⟨"B", true, true, [⟨"d.ymap", ["d.ymap"], 4, true, true⟩]⟩,
         ⟨"C", true, true, [⟨"e.ymap", ["e.ymap"], 5, true, true⟩,
            ⟨"f.ymap", ["f.ymap"], 6, true, true⟩]⟩] ["out"]
        false false true false (fun _ => []))).map Prod.fst) :=
  ⟨(progress_contract (fun _ => false)
      [⟨"A", true, true, [⟨"a.ymap", ["a.ymap"], 1, true, true⟩,
          ⟨"b.ymap", ["b.ymap"], 2, true, true⟩,
          ⟨"c.txt", ["c.txt"], 3, true, true⟩]⟩,
       ⟨"B", true, true, [⟨"d.ymap", ["d.ymap"], 4, true, true⟩]⟩,
       ⟨"C", true, true, [⟨"e.ymap", ["e.ymap"], 5, true, true⟩,
          ⟨"f.ymap", ["f.ymap"], 6, true, true⟩]⟩] ["out"]
      false false true false (fun _ => [])).1,
   (progress_contract (fun _ => false)
      [⟨"A", true, true, [⟨"a.ymap", ["a.ymap"], 1, true, true⟩,
          ⟨"b.ymap", ["b.ymap"], 2, true, true⟩,
          ⟨"c.txt", ["c.txt"], 3, true, true⟩]⟩,
       ⟨"B", true, true, [⟨"d.ymap", ["d.ymap"], 4, true, true⟩]⟩,
       ⟨"C", true, true, [⟨"e.ymap", ["e.ymap"], 5, true, true⟩,
          ⟨"f.ymap", ["f.ymap"], 6, true, true⟩]⟩] ["out"]
      false false true false (fun _ => [])).2.1⟩

end MloCleaner
